import Mathlib

/-!
# gcal-fetch-events: fetch, merge, sort, render and cache calendar events

A shallow embedding of `main.go`.  The program's own functions
(`fetchWithHTTPClient`, `timeDateChooser`, `prettyDate`, `readFromCache`,
`writeCache`, `cacheFilename`, `main`) are translated from the source.  The Go
standard library calls they make (`time.Parse`, `Time.Format`, `Time.Day`,
`Time.Before`, `sort.Slice`) are modelled here as executable definitions
following package `time` and package `sort` (the pattern-defeating quicksort
of `zsortfunc.go`), and the sort is proved to meet the contract that package
`sort` documents.  The display zone `loc` (`Europe/Moscow` in the source) and
the local zone are parameters: a location is the UTC offset in force at each
instant.
-/

namespace Gcal

/-! ## Package `time`: instants, civil fields -/

/-- A `time.Time`: an instant (`sec` seconds and `nsec` nanoseconds after
0001-01-01T00:00:00 UTC) together with the UTC offset, in seconds east, that
its location has at that instant.  The zero `Time` is `⟨0, 0, 0⟩`. -/
structure Time where
  sec : Int
  nsec : Nat
  off : Int
deriving DecidableEq

/-- The zero value `time.Time{}`: 0001-01-01 00:00:00 UTC. -/
def Time.zero : Time := ⟨0, 0, 0⟩

/-- A `*time.Location`: the UTC offset in seconds east in force at an instant
(given in seconds after 0001-01-01T00:00:00 UTC). -/
abbrev Location := Int → Int

/-- The location `time.UTC`. -/
def UTC : Location := fun _ => 0

/-- A fixed-offset location, as `time.FixedZone`. -/
def FixedZone (offset : Int) : Location := fun _ => offset

/-- Method `Time.Before`: the instant of `t` is strictly before that of `u`. -/
def Time.Before (t u : Time) : Bool :=
  decide (t.sec < u.sec) || (decide (t.sec = u.sec) && decide (t.nsec < u.nsec))

/-- Method `Time.In`: same instant, seen in location `loc`. -/
def Time.In (t : Time) (loc : Location) : Time := ⟨t.sec, t.nsec, loc t.sec⟩

/-- Method `Time.Add` for a duration of whole seconds. -/
def Time.AddSec (t : Time) (d : Int) (loc : Location) : Time :=
  ⟨t.sec + d, t.nsec, loc (t.sec + d)⟩

/-- The function `isLeap` of package time. -/
def isLeap (year : Int) : Bool :=
  year % 4 == 0 && (year % 100 != 0 || year % 400 == 0)

/-- The table `daysBefore` of package time: days in a non-leap year before
month `m + 1`. -/
def daysBefore (m : Nat) : Nat :=
  match m with
  | 0 => 0 | 1 => 31 | 2 => 59 | 3 => 90 | 4 => 120 | 5 => 151 | 6 => 181
  | 7 => 212 | 8 => 243 | 9 => 273 | 10 => 304 | 11 => 334 | _ => 365

/-- The function `daysIn` of package time. -/
def daysIn (month : Nat) (year : Int) : Nat :=
  if month = 2 ∧ isLeap year = true then 29
  else daysBefore month - daysBefore (month - 1)

/-- Number of the civil day (day 0 is 0001-01-01) on which `t` falls in its
own location. -/
def Time.absDay (t : Time) : Int := (t.sec + t.off) / 86400

/-- Second of the civil day of `t` in its own location. -/
def Time.secOfDay (t : Time) : Nat := ((t.sec + t.off) % 86400).toNat

/-- Year and day of the year (0-based) of a day number, by 400-, 100-, 4- and
1-year cycles as in `absDate` of package time. -/
def yearAndYday (days : Int) : Int × Nat :=
  let n400 := days / 146097
  let d0 := (days % 146097).toNat
  let n100 := d0 / 36524 - (d0 / 36524) / 4
  let d1 := d0 - 36524 * n100
  let n4 := d1 / 1461
  let d2 := d1 - 1461 * n4
  let n1 := d2 / 365 - (d2 / 365) / 4
  let d3 := d2 - 365 * n1
  (400 * n400 + (100 * n100 + 4 * n4 + n1 : Nat) + 1, d3)

/-- Month (1..12) and day of the month of a 0-based day of the year, as in
`absDate` of package time. -/
def monthAndDay (leap : Bool) (yday : Nat) : Nat × Nat :=
  if leap && yday == 59 then (2, 29)
  else
    let day := if leap && decide (59 < yday) then yday - 1 else yday
    let month := day / 31
    let stop := daysBefore (month + 1)
    if stop ≤ day then (month + 2, day - stop + 1)
    else (month + 1, day - daysBefore month + 1)

/-- Method `Time.Year`. -/
def Time.Year (t : Time) : Int := (yearAndYday t.absDay).1

/-- Method `Time.Month`, as a number 1..12. -/
def Time.Month (t : Time) : Nat :=
  (monthAndDay (isLeap t.Year) (yearAndYday t.absDay).2).1

/-- Method `Time.Day`: day of the month. -/
def Time.Day (t : Time) : Nat :=
  (monthAndDay (isLeap t.Year) (yearAndYday t.absDay).2).2

/-- Method `Time.Hour`. -/
def Time.Hour (t : Time) : Nat := t.secOfDay / 3600

/-- Method `Time.Minute`. -/
def Time.Minute (t : Time) : Nat := t.secOfDay % 3600 / 60

/-- Method `Time.Second`. -/
def Time.Second (t : Time) : Nat := t.secOfDay % 60

/-- Method `Time.Weekday`, Sunday is 0; 0001-01-01 is a Monday. -/
def Time.Weekday (t : Time) : Nat := ((t.absDay + 1) % 7).toNat

/-- Days from 0001-01-01 to the given civil date, for a month in 1..12 and a
day of that month, as computed by `time.Date`. -/
def daysSinceEpoch (year : Int) (month day : Nat) : Int :=
  let y := year - 1
  365 * y + y / 4 - y / 100 + y / 400 + daysBefore (month - 1)
    + (if isLeap year && decide (3 ≤ month) then 1 else 0) + (day - 1 : Nat)

/-- The function `time.Date` in UTC followed by a shift to the zone offset
`off`: the instant whose civil reading at offset `off` is the given one. -/
def Date (year : Int) (month day hour min sec nsec : Nat) (off : Int) : Time :=
  ⟨daysSinceEpoch year month day * 86400 + hour * 3600 + min * 60 + sec - off, nsec, off⟩

/-! ## Package `time`: formatting with the layouts the program uses -/

/-- Decimal digit as a character. -/
def digitChar (d : Nat) : Char :=
  match d with
  | 0 => '0' | 1 => '1' | 2 => '2' | 3 => '3' | 4 => '4'
  | 5 => '5' | 6 => '6' | 7 => '7' | 8 => '8' | _ => '9'

/-- Decimal digits of `u`, most significant first, at least one digit; the
loop of `appendInt` (`fuel` bounds the number of digits, 20 for a uint64). -/
def utod : Nat → Nat → List Char → List Char
  | 0, u, acc => digitChar (u % 10) :: acc
  | fuel + 1, u, acc =>
    if u < 10 then digitChar u :: acc
    else utod fuel (u / 10) (digitChar (u % 10) :: acc)

/-- The function `appendInt` of package time: `x` in decimal, zero-padded on
the left to at least `width` characters, with a leading minus sign when
negative. -/
def appendInt (x : Int) (width : Nat) : List Char :=
  let ds := utod 19 x.natAbs []
  (if x < 0 then ['-'] else []) ++ List.replicate (width - ds.length) '0' ++ ds

/-- Three-letter weekday names, Sunday first. -/
def shortDayName (w : Nat) : String :=
  match w with
  | 0 => "Sun" | 1 => "Mon" | 2 => "Tue" | 3 => "Wed" | 4 => "Thu" | 5 => "Fri" | _ => "Sat"

/-- Three-letter month names, for months 1..12. -/
def shortMonthName (m : Nat) : String :=
  match m with
  | 1 => "Jan" | 2 => "Feb" | 3 => "Mar" | 4 => "Apr" | 5 => "May" | 6 => "Jun"
  | 7 => "Jul" | 8 => "Aug" | 9 => "Sep" | 10 => "Oct" | 11 => "Nov" | _ => "Dec"

/-- `t.Format("15:04:05")`. -/
def Time.FormatClock (t : Time) : String :=
  String.mk (appendInt t.Hour 2 ++ [':'] ++ appendInt t.Minute 2 ++ [':'] ++ appendInt t.Second 2)

/-- `t.Format("Today, 15:04:05")`: the layout holds no reference element
before the clock, so `Today, ` is copied as it stands. -/
def Time.FormatToday (t : Time) : String := "Today, " ++ t.FormatClock

/-- `t.Format("Tomorrow, 15:04:05")`. -/
def Time.FormatTomorrow (t : Time) : String := "Tomorrow, " ++ t.FormatClock

/-- `t.Format("Mon, 02 Jan 15:04:05")`. -/
def Time.FormatWeekday (t : Time) : String :=
  shortDayName t.Weekday ++ ", " ++ String.mk (appendInt t.Day 2) ++ " "
    ++ shortMonthName t.Month ++ " " ++ t.FormatClock

/-- `t.Format("2006010215")`: four-digit year, two-digit month, day and hour. -/
def Time.FormatHourBucket (t : Time) : String :=
  String.mk (appendInt t.Year 4 ++ appendInt t.Month 2 ++ appendInt t.Day 2 ++ appendInt t.Hour 2)

/-! ## Package `time`: parsing with the layouts the program uses -/

/-- The function `isDigit` at the head of the input. -/
def isDigitAt (s : List Char) (i : Nat) : Bool :=
  match s.get? i with
  | some c => decide ('0' ≤ c) && decide (c ≤ '9')
  | none => false

/-- Value of a decimal digit character. -/
def digitVal (c : Char) : Nat := c.toNat - 48

/-- The function `getnum` of package time: a one- or two-digit number, exactly
two digits when `fixed`. -/
def getnum (s : List Char) (fixed : Bool) : Option (Nat × List Char) :=
  if !isDigitAt s 0 then none
  else if !isDigitAt s 1 then
    if fixed then none
    else match s with
      | c :: rest => some (digitVal c, rest)
      | [] => none
  else match s with
    | c0 :: c1 :: rest => some (digitVal c0 * 10 + digitVal c1, rest)
    | _ => none

/-- A run of digits read as a decimal number (`atoi` on an unsigned field);
`none` when a character is not a digit. -/
def atoiDigits : List Char → Nat → Option Nat
  | [], acc => some acc
  | c :: rest, acc =>
    if decide ('0' ≤ c) && decide (c ≤ '9') then atoiDigits rest (acc * 10 + digitVal c)
    else none

/-- The function `skip` for a one-character literal of the layout. -/
def skipChar (s : List Char) (c : Char) : Option (List Char) :=
  match s with
  | d :: rest => if d = c then some rest else none
  | [] => none

/-- The element `2006`: exactly four digits. -/
def parseYear (s : List Char) : Option (Nat × List Char) :=
  if s.length < 4 || !isDigitAt s 0 then none
  else (atoiDigits (s.take 4) 0).map fun y => (y, s.drop 4)

/-- The date part `2006-01-02` of both layouts: year, month in 1..12 and a
one- or two-digit day whose range is checked once the whole value is read. -/
def parseDatePart (s : List Char) : Option (Nat × Nat × Nat × List Char) := do
  let (year, s) ← parseYear s
  let s ← skipChar s '-'
  let (month, s) ← getnum s true
  if month = 0 ∨ 12 < month then none
  let s ← skipChar s '-'
  let (day, s) ← getnum s true
  pure (year, month, day, s)

/-- The final day-of-month check of `time.Parse`. -/
def dayInRange (year month day : Nat) : Bool :=
  decide (1 ≤ day) && decide (day ≤ daysIn month year)

/-- `time.Parse("2006-01-02", value)`: the date at 00:00:00 UTC. -/
def parseDate (value : String) : Option Time := do
  let (year, month, day, s) ← parseDatePart value.data
  if s ≠ [] then none
  if !dayInRange year month day then none
  pure (Date year month day 0 0 0 0 0)

/-- Length of the run of digits at the head of the input. -/
def digitRun : List Char → Nat
  | [] => 0
  | c :: rest => if decide ('0' ≤ c) && decide (c ≤ '9') then digitRun rest + 1 else 0

/-- Fractional seconds after the seconds field although the layout has
none: a period or comma followed by at least one digit; the first nine digits
count, as nanoseconds (`parseNanoseconds`). -/
def parseFraction (s : List Char) : Nat × List Char :=
  match s with
  | c :: rest =>
    if (c = '.' ∨ c = ',') ∧ isDigitAt rest 0 = true then
      let n := digitRun rest
      let ds := rest.take (min n 9)
      (((atoiDigits ds 0).getD 0) * 10 ^ (9 - ds.length), rest.drop n)
    else (0, s)
  | [] => (0, s)

/-- The element `Z07:00`: `Z` for UTC, or a sign, two digits, a colon and two
digits, with hours up to 24 and minutes up to 60. -/
def parseZone (s : List Char) : Option (Int × List Char) :=
  match s with
  | 'Z' :: rest => some (0, rest)
  | _ =>
    if s.length < 6 then none
    else if s.get? 3 ≠ some ':' then none
    else do
      let (hr, _) ← getnum (s.drop 1 |>.take 2) true
      let (mm, _) ← getnum (s.drop 4 |>.take 2) true
      if 24 < hr ∨ 60 < mm then none
      let offset : Int := ((hr * 60 + mm) * 60 : Nat)
      match s.get? 0 with
      | some '+' => some (offset, s.drop 6)
      | some '-' => some (-offset, s.drop 6)
      | _ => none

/-- `time.Parse(time.RFC3339, value)`, layout `2006-01-02T15:04:05Z07:00`. -/
def parseRFC3339 (value : String) : Option Time := do
  let (year, month, day, s) ← parseDatePart value.data
  let s ← skipChar s 'T'
  let (hour, s) ← getnum s false
  if 24 ≤ hour then none
  let s ← skipChar s ':'
  let (min, s) ← getnum s true
  if 60 ≤ min then none
  let s ← skipChar s ':'
  let (sec, s) ← getnum s true
  if 60 ≤ sec then none
  let (nsec, s) := parseFraction s
  let (off, s) ← parseZone s
  if s ≠ [] then none
  if !dayInRange year month day then none
  pure (Date year month day hour min sec nsec off)

/-! ## Package `sort`: the contract of `sort.Slice` -/

/-- The requirement package sort puts on a `less` function: a strict weak
ordering (irreflexive, transitive, and with a transitive "neither is less"). -/
structure StrictWeakOrder {α : Type} (less : α → α → Bool) : Prop where
  irrefl : ∀ a, less a a = false
  trans : ∀ a b c, less a b = true → less b c = true → less a c = true
  incomp_trans : ∀ a b c, less a b = false → less b a = false →
    less b c = false → less c b = false → less a c = false ∧ less c a = false

/-- What `sort.Slice(x, less)` promises: for a `less` that is a strict weak
ordering the slice is rearranged (a permutation) so that no element is less
than one placed before it.  Nothing is promised about the order of elements
neither of which is less than the other ("the sort is not guaranteed to be
stable"). -/
def SortSliceSpec {α : Type} (sortSlice : (α → α → Bool) → List α → List α) : Prop :=
  ∀ less xs, StrictWeakOrder less →
    (sortSlice less xs).Perm xs ∧ (sortSlice less xs).Pairwise (fun a b => less b a = false)

/-! ## The program: events and `fetchWithHTTPClient` -/

/-- The field `Start` of a `calendar.Event`: `Date` is set for an all-day
event, `DateTime` for a timed one; an unset field is the empty string. -/
structure EventDateTime where
  Date : String
  DateTime : String
deriving DecidableEq

/-- The fields of `calendar.Event` the program reads. -/
structure Event where
  Summary : String
  Description : String
  Start : EventDateTime
deriving DecidableEq

/-- One configured calendar: its ID in `cfg.Calendar.IDs` and what the list
request for it (`srv.Events.List(calendarID)...Do()`) returns in this run:
an error, or the items of the answer. -/
structure Source where
  calendarID : String
  response : Except String (List Event)

/-- The closure `timeDateChooser`: the parsed `Start.Date` when it is
non-empty, otherwise the parsed `Start.DateTime`; `none` is a parse error. -/
def timeDateChooser (event : Event) : Option Time :=
  if 0 < event.Start.Date.length then parseDate event.Start.Date
  else parseRFC3339 event.Start.DateTime

/-- The time value the sort uses: `dateA, _ := timeDateChooser(...)` drops the
error, and `time.Parse` returns the zero `Time` along with an error. -/
def effectiveInstant (event : Event) : Time :=
  (timeDateChooser event).getD Time.zero

/-- The `less` function handed to `sort.Slice`, on the elements at the two
indices: `dateA.Before(dateB)`. -/
def eventLess (a b : Event) : Bool :=
  (effectiveInstant a).Before (effectiveInstant b)

/-- State of the loop over `cfg.Calendar.IDs`. -/
structure FetchState where
  items : List Event
  requests : List String
  logged : List String

/-- The loop over `cfg.Calendar.IDs`: one list request per calendar, in
order; on the first failing request the error is logged and the loop is left
(`break`); otherwise the items are appended to `events.Items`. -/
def fetchLoop : List Source → FetchState → FetchState
  | [], st => st
  | src :: rest, st =>
    match src.response with
    | .error listErr =>
      { st with requests := st.requests ++ [src.calendarID], logged := st.logged ++ [listErr] }
    | .ok calendarItems =>
      fetchLoop rest
        { st with items := st.items ++ calendarItems, requests := st.requests ++ [src.calendarID] }

/-- Everything observable of one call of `fetchWithHTTPClient`: the two
return values, the calendar IDs for which a list request was issued (in
order), and the errors handed to `log.Print`. -/
structure FetchOutcome where
  events : List Event
  err : Option String
  requests : List String
  logged : List String

/-- The function `fetchWithHTTPClient`.  `newService` is the result of
`calendar.NewService` (an error ends the call at once), `sources` are the
configured calendars with the answers of the remote service, and `sortSlice`
is `sort.Slice`. -/
def fetchWithHTTPClient (sortSlice : (Event → Event → Bool) → List Event → List Event)
    (newService : Except String Unit) (sources : List Source) : FetchOutcome :=
  match newService with
  | .error err => { events := [], err := some err, requests := [], logged := [] }
  | .ok _ =>
    let st := fetchLoop sources { items := [], requests := [], logged := [] }
    { events := sortSlice eventLess st.items, err := none,
      requests := st.requests, logged := st.logged }

/-! ## The program: `prettyDate`, the cache file and `main` -/

/-- The call `time.Now()`: the instant `now` (seconds after
0001-01-01T00:00:00 UTC) in the process's local zone `tzLocal`. -/
def timeNow (tzLocal : Location) (now : Int) : Time := ⟨now, 0, tzLocal now⟩

/-- The three branches of `prettyDate` on the parsed time `t`: the day of the
month of `t` (in the zone `t` carries) is compared with the day of the month
of `time.Now()` and of `time.Now().Add(24h)` (both in the local zone); the
label is formatted in the display zone `loc`. -/
def prettyDateOf (tzLocal loc : Location) (now : Int) (t : Time) : String :=
  if t.Day = (timeNow tzLocal now).Day then (t.In loc).FormatToday
  else if t.Day = ((timeNow tzLocal now).AddSec 86400 tzLocal).Day then (t.In loc).FormatTomorrow
  else (t.In loc).FormatWeekday

/-- The function `prettyDate`: `t, _ := time.Parse(time.RFC3339, d)` (the zero
time when `d` does not parse), then the three branches. -/
def prettyDate (tzLocal loc : Location) (now : Int) (d : String) : String :=
  prettyDateOf tzLocal loc now ((parseRFC3339 d).getD Time.zero)

/-- The package variable `cacheFilename`, computed from `time.Now()`. -/
def cacheFilename (now : Time) : String :=
  "/tmp/gcal.events" ++ now.FormatHourBucket

/-- The file system as far as the program sees it: the content of each path
that can be read, `none` for a path whose read fails. -/
abbrev FS := String → Option String

/-- The function `readFromCache`: the content of the cache file, the empty
string when `ioutil.ReadFile` fails. -/
def readFromCache (fs : FS) (name : String) : String := (fs name).getD ""

/-- The function `writeCache`: `ioutil.WriteFile` replaces the content of the
cache file when it succeeds (`writeOk`); its error is dropped. -/
def writeCache (fs : FS) (name : String) (writeOk : Bool) (summary : String) : FS :=
  if writeOk then fun path => if path = name then some summary else fs path else fs

/-- The body of the loop of `main` for one event. -/
def renderEvent (tzLocal loc : Location) (now : Int) (event : Event) : String :=
  "[" ++ prettyDate tzLocal loc now event.Start.DateTime ++ "] " ++ event.Summary ++ "\n"
    ++ (if event.Description ≠ "" then "        " ++ event.Description ++ "\n" else "")
    ++ "\n"

/-- The loop of `main` that builds `summary`. -/
def buildSummary (tzLocal loc : Location) (now : Int) (events : List Event) : String :=
  events.foldl (fun summary event => summary ++ renderEvent tzLocal loc now event) ""

/-- What one run of the program finds outside itself: the file system, the
clock and the local zone, the result of decoding the configuration file
(`.ok hasToken`: decoded, with or without a `token` table), the result of
`calendar.NewService`, the configured calendars with the answers of the remote
service, and whether writing the cache file succeeds. -/
structure World where
  fs : FS
  now : Int
  tzLocal : Location
  loc : Location
  decodeFile : Except String Bool
  newService : Except String Unit
  sources : List Source
  writeOk : Bool

/-- How a run ends. -/
inductive Exit where
  | ok
  | fatal (msg : String)
  | nilPointer
deriving DecidableEq

/-- Everything observable of one run of `main`. -/
structure Run where
  exit : Exit
  stdout : String
  fs : FS
  cacheHit : Bool
  configLoads : Nat
  requests : List String

/-- The function `main`. -/
def main (sortSlice : (Event → Event → Bool) → List Event → List Event) (w : World) : Run :=
  let name := cacheFilename (timeNow w.tzLocal w.now)
  let cached := readFromCache w.fs name
  if cached ≠ "" then
    { exit := .ok, stdout := cached, fs := w.fs, cacheHit := true, configLoads := 0,
      requests := [] }
  else
    match w.decodeFile with
    | .error err =>
      { exit := .fatal err, stdout := "", fs := w.fs, cacheHit := false, configLoads := 1,
        requests := [] }
    | .ok false =>
      { exit := .nilPointer, stdout := "", fs := w.fs, cacheHit := false, configLoads := 1,
        requests := [] }
    | .ok true =>
      let fetched := fetchWithHTTPClient sortSlice w.newService w.sources
      match fetched.err with
      | some err =>
        { exit := .fatal err, stdout := "", fs := w.fs, cacheHit := false, configLoads := 1,
          requests := fetched.requests }
      | none =>
        let summary := buildSummary w.tzLocal w.loc w.now fetched.events
        { exit := .ok, stdout := summary, fs := writeCache w.fs name w.writeOk summary,
          cacheHit := false, configLoads := 1, requests := fetched.requests }

/-! ## Package `sort`: the algorithm of `sort.Slice` (pattern-defeating quicksort)

The functions of `zsortfunc.go`, on a slice held as a list; `data.Less(i, j)`
is `lessAt` and `data.Swap(i, j)` is `swapAt`.  Loops carry a bound on the
number of their iterations. -/

/-- The call `data.Less(i, j)`. -/
def lessAt {α : Type} (less : α → α → Bool) (data : List α) (i j : Nat) : Bool :=
  match data.get? i, data.get? j with
  | some x, some y => less x y
  | _, _ => false

/-- The call `data.Swap(i, j)`. -/
def swapAt {α : Type} (data : List α) (i j : Nat) : List α :=
  match data.get? i, data.get? j with
  | some x, some y => (data.set i y).set j x
  | _, _ => data

/-- Inner loop of `insertionSort_func`:
`for j := i; j > a && data.Less(j, j-1); j-- { data.Swap(j, j-1) }`. -/
def insertionInner {α : Type} (less : α → α → Bool) (a : Nat) : Nat → List α → List α
  | 0, data => data
  | j + 1, data =>
    if decide (a < j + 1) && lessAt less data (j + 1) j then
      insertionInner less a j (swapAt data (j + 1) j)
    else data

/-- Outer loop of `insertionSort_func`: `for i := a + 1; i < b; i++`. -/
def insertionOuter {α : Type} (less : α → α → Bool) (a b : Nat) :
    Nat → Nat → List α → List α
  | 0, _, data => data
  | fuel + 1, i, data =>
    if i < b then insertionOuter less a b fuel (i + 1) (insertionInner less a i data) else data

/-- The function `insertionSort_func`: sorts `data[a:b]` by insertion. -/
def insertionSort_func {α : Type} (less : α → α → Bool) (data : List α) (a b : Nat) : List α :=
  insertionOuter less a b (b - a) (a + 1) data

/-- The function `siftDown_func` on `data[first+lo : first+hi]`, from `root`. -/
def siftDown_func {α : Type} (less : α → α → Bool) (hi first : Nat) :
    Nat → Nat → List α → List α
  | 0, _, data => data
  | fuel + 1, root, data =>
    let child := 2 * root + 1
    if hi ≤ child then data
    else
      let child :=
        if decide (child + 1 < hi) && lessAt less data (first + child) (first + child + 1)
        then child + 1 else child
      if !lessAt less data (first + root) (first + child) then data
      else siftDown_func less hi first fuel child (swapAt data (first + root) (first + child))

/-- First loop of `heapSort_func`: `for i := (hi - 1) / 2; i >= 0; i--`. -/
def heapBuild {α : Type} (less : α → α → Bool) (hi first : Nat) : Nat → List α → List α
  | 0, data => siftDown_func less hi first hi 0 data
  | i + 1, data => heapBuild less hi first i (siftDown_func less hi first hi (i + 1) data)

/-- Second loop of `heapSort_func`: `for i := hi - 1; i >= 0; i--`, with
`count = i + 1`. -/
def heapPop {α : Type} (less : α → α → Bool) (first : Nat) : Nat → List α → List α
  | 0, data => data
  | i + 1, data => heapPop less first i (siftDown_func less i first i 0 (swapAt data first (first + i)))

/-- The function `heapSort_func`. -/
def heapSort_func {α : Type} (less : α → α → Bool) (data : List α) (a b : Nat) : List α :=
  heapPop less a (b - a) (heapBuild less (b - a) a ((b - a - 1) / 2) data)

/-- The function `bits.Len`: number of bits needed to write `n`. -/
def bitsLen : Nat → Nat → Nat
  | 0, _ => 0
  | fuel + 1, n => if n = 0 then 0 else bitsLen fuel (n / 2) + 1

/-- Method `xorshift.Next` on a 64-bit state. -/
def xorshiftNext (r : Nat) : Nat :=
  let r := (r ^^^ (r <<< 13)) % 2 ^ 64
  let r := r ^^^ (r >>> 7)
  (r ^^^ (r <<< 17)) % 2 ^ 64

/-- The loop of `breakPatterns_func`: the elements at `idx`, `idx + 1` and
`idx + 2` are each swapped with one at a pseudo-random place of the part. -/
def breakPatternsLoop {α : Type} (a length modulus idx : Nat) :
    Nat → Nat → Nat → List α → List α
  | 0, _, _, data => data
  | n + 1, i, random, data =>
    let random := xorshiftNext random
    let other := random &&& (modulus - 1)
    let other := if length ≤ other then other - length else other
    breakPatternsLoop a length modulus idx n (i + 1) random (swapAt data (idx + i) (a + other))

/-- The function `breakPatterns_func`. -/
def breakPatterns_func {α : Type} (data : List α) (a b : Nat) : List α :=
  let length := b - a
  if 8 ≤ length then
    breakPatternsLoop a length (1 <<< bitsLen 64 length) (a + (length / 4) * 2 - 1) 3 0 length data
  else data

/-- The type `sortedHint`. -/
inductive SortedHint where
  | unknownHint
  | increasingHint
  | decreasingHint
deriving DecidableEq

/-- The function `order2_func`: the two indices in order, and the swap count. -/
def order2_func {α : Type} (less : α → α → Bool) (data : List α) (a b swaps : Nat) :
    Nat × Nat × Nat :=
  if lessAt less data b a then (b, a, swaps + 1) else (a, b, swaps)

/-- The function `median_func`: index of the median of three, and the swap
count. -/
def median_func {α : Type} (less : α → α → Bool) (data : List α) (a b c swaps : Nat) :
    Nat × Nat :=
  let r1 := order2_func less data a b swaps
  let r2 := order2_func less data r1.2.1 c r1.2.2
  let r3 := order2_func less data r1.1 r2.1 r2.2.2
  (r3.2.1, r3.2.2)

/-- The function `medianAdjacent_func`. -/
def medianAdjacent_func {α : Type} (less : α → α → Bool) (data : List α) (a swaps : Nat) :
    Nat × Nat :=
  median_func less data (a - 1) a (a + 1) swaps

/-- The `switch swaps` at the end of `choosePivot_func` (`maxSwaps` is 12). -/
def hintOfSwaps (swaps : Nat) : SortedHint :=
  if swaps = 0 then .increasingHint
  else if swaps = 12 then .decreasingHint
  else .unknownHint

/-- The Tukey ninther step of `choosePivot_func`: each of the three indices is
replaced by the median of itself and its two neighbours. -/
def ninther {α : Type} (less : α → α → Bool) (data : List α) (i j k : Nat) :
    Nat × Nat × Nat × Nat :=
  let ri := medianAdjacent_func less data i 0
  let rj := medianAdjacent_func less data j ri.2
  let rk := medianAdjacent_func less data k rj.2
  (ri.1, rj.1, rk.1, rk.2)

/-- The function `choosePivot_func`. -/
def choosePivot_func {α : Type} (less : α → α → Bool) (data : List α) (a b : Nat) :
    Nat × SortedHint :=
  let l := b - a
  let i := a + l / 4 * 1
  let j := a + l / 4 * 2
  let k := a + l / 4 * 3
  if 8 ≤ l then
    let c := if 50 ≤ l then ninther less data i j k else (i, j, k, 0)
    let m := median_func less data c.1 c.2.1 c.2.2.1 c.2.2.2
    (m.1, hintOfSwaps m.2)
  else (j, hintOfSwaps 0)

/-- The function `reverseRange_func`, as a loop on `i` and `j`. -/
def reverseLoop {α : Type} : Nat → Nat → Nat → List α → List α
  | 0, _, _, data => data
  | fuel + 1, i, j, data =>
    if i < j then reverseLoop fuel (i + 1) (j - 1) (swapAt data i j) else data

/-- The function `reverseRange_func`. -/
def reverseRange_func {α : Type} (data : List α) (a b : Nat) : List α :=
  reverseLoop (b - a) a (b - 1) data

/-- Loop `for i < b && !data.Less(i, i-1) { i++ }` of
`partialInsertionSort_func`. -/
def scanSorted {α : Type} (less : α → α → Bool) (data : List α) (b : Nat) : Nat → Nat → Nat
  | 0, i => i
  | fuel + 1, i =>
    if decide (i < b) && !lessAt less data i (i - 1) then scanSorted less data b fuel (i + 1)
    else i

/-- Loop `for j := i - 1; j >= 1; j--` of `partialInsertionSort_func`, which
shifts the smaller element to the left. -/
def shiftLeft {α : Type} (less : α → α → Bool) : Nat → List α → List α
  | 0, data => data
  | j + 1, data =>
    if !lessAt less data (j + 1) j then data
    else shiftLeft less j (swapAt data (j + 1) j)

/-- Loop `for j := i + 1; j < b; j++` of `partialInsertionSort_func`, which
shifts the greater element to the right. -/
def shiftRight {α : Type} (less : α → α → Bool) (b : Nat) : Nat → Nat → List α → List α
  | 0, _, data => data
  | fuel + 1, j, data =>
    if j < b then
      if !lessAt less data j (j - 1) then data
      else shiftRight less b fuel (j + 1) (swapAt data j (j - 1))
    else data

/-- The loop `for j := 0; j < maxSteps; j++` of `partialInsertionSort_func`. -/
def partialInsertionLoop {α : Type} (less : α → α → Bool) (a b : Nat) :
    Nat → Nat → List α → List α × Bool
  | 0, _, data => (data, false)
  | steps + 1, i, data =>
    let i := scanSorted less data b b i
    if i = b then (data, true)
    else if b - a < 50 then (data, false)
    else
      let data := swapAt data i (i - 1)
      let data := if 2 ≤ i - a then shiftLeft less (i - 1) data else data
      let data := if 2 ≤ b - i then shiftRight less b b (i + 1) data else data
      partialInsertionLoop less a b steps i data

/-- The function `partialInsertionSort_func`: at most five repairs; `true`
when `data[a:b]` ends sorted. -/
def partialInsertionSort_func {α : Type} (less : α → α → Bool) (data : List α) (a b : Nat) :
    List α × Bool :=
  partialInsertionLoop less a b 5 (a + 1) data

/-- Loop `for i <= j && data.Less(i, a) { i++ }` of `partition_func`. -/
def scanUp {α : Type} (less : α → α → Bool) (data : List α) (a j : Nat) : Nat → Nat → Nat
  | 0, i => i
  | fuel + 1, i =>
    if decide (i ≤ j) && lessAt less data i a then scanUp less data a j fuel (i + 1) else i

/-- Loop `for i <= j && !data.Less(j, a) { j-- }` of `partition_func`. -/
def scanDown {α : Type} (less : α → α → Bool) (data : List α) (a i : Nat) : Nat → Nat → Nat
  | 0, j => j
  | fuel + 1, j =>
    if decide (i ≤ j) && !lessAt less data j a then scanDown less data a i fuel (j - 1) else j

/-- The final `for` loop of `partition_func`; gives the data and `j`. -/
def partitionLoop {α : Type} (less : α → α → Bool) (a : Nat) :
    Nat → Nat → Nat → List α → List α × Nat
  | 0, _, j, data => (data, j)
  | fuel + 1, i, j, data =>
    let i := scanUp less data a j (j + 1) i
    let j := scanDown less data a i (j + 1) j
    if j < i then (data, j)
    else partitionLoop less a fuel (i + 1) (j - 1) (swapAt data i j)

/-- The function `partition_func`: the data, the new index of the pivot, and
whether the slice was already partitioned. -/
def partition_func {α : Type} (less : α → α → Bool) (data : List α) (a b pivot : Nat) :
    List α × Nat × Bool :=
  let data := swapAt data a pivot
  let i := scanUp less data a (b - 1) b (a + 1)
  let j := scanDown less data a i b (b - 1)
  if j < i then (swapAt data j a, j, true)
  else
    let data := swapAt data i j
    let (data, j) := partitionLoop less a (b - a) (i + 1) (j - 1) data
    (swapAt data j a, j, false)

/-- Loop `for i <= j && !data.Less(a, i) { i++ }` of `partitionEqual_func`. -/
def scanUpEqual {α : Type} (less : α → α → Bool) (data : List α) (a j : Nat) : Nat → Nat → Nat
  | 0, i => i
  | fuel + 1, i =>
    if decide (i ≤ j) && !lessAt less data a i then scanUpEqual less data a j fuel (i + 1) else i

/-- Loop `for i <= j && data.Less(a, j) { j-- }` of `partitionEqual_func`. -/
def scanDownEqual {α : Type} (less : α → α → Bool) (data : List α) (a i : Nat) :
    Nat → Nat → Nat
  | 0, j => j
  | fuel + 1, j =>
    if decide (i ≤ j) && lessAt less data a j then scanDownEqual less data a i fuel (j - 1) else j

/-- The `for` loop of `partitionEqual_func`; gives the data and `i`. -/
def partitionEqualLoop {α : Type} (less : α → α → Bool) (a : Nat) :
    Nat → Nat → Nat → List α → List α × Nat
  | 0, i, _, data => (data, i)
  | fuel + 1, i, j, data =>
    let i := scanUpEqual less data a j (j + 1) i
    let j := scanDownEqual less data a i (j + 1) j
    if j < i then (data, i)
    else partitionEqualLoop less a fuel (i + 1) (j - 1) (swapAt data i j)

/-- The function `partitionEqual_func`. -/
def partitionEqual_func {α : Type} (less : α → α → Bool) (data : List α) (a b pivot : Nat) :
    List α × Nat :=
  partitionEqualLoop less a (b - a) (a + 1) (b - 1) (swapAt data a pivot)

/-- One turn of the loop of `pdqsort_func`, from `breakPatterns_func` to
`partialInsertionSort_func`: the data, the pivot index, and whether the part
was found sorted (the turn then returns). -/
def pdqPrepare {α : Type} (less : α → α → Bool) (data : List α) (a b : Nat)
    (wasBalanced wasPartitioned : Bool) : List α × Nat × Bool :=
  let data := if !wasBalanced then breakPatterns_func data a b else data
  let chosen := choosePivot_func less data a b
  let reversed := decide (chosen.2 = .decreasingHint)
  let data := if reversed then reverseRange_func data a b else data
  let pivot := if reversed then (b - 1) - (chosen.1 - a) else chosen.1
  let hint := if reversed then SortedHint.increasingHint else chosen.2
  let tried :=
    if wasBalanced && wasPartitioned && decide (hint = .increasingHint) then
      partialInsertionSort_func less data a b
    else (data, false)
  (tried.1, pivot, tried.2)

/-- The function `pdqsort_func` on `data[a:b]`; one unit of `fuel` per turn of
its loop, `b - a + 1` units are enough. -/
def pdqsort_func {α : Type} (less : α → α → Bool) :
    Nat → List α → Nat → Nat → Nat → Bool → Bool → List α
  | 0, data, _, _, _, _, _ => data
  | fuel + 1, data, a, b, limit, wasBalanced, wasPartitioned =>
    if b - a ≤ 12 then insertionSort_func less data a b
    else if limit = 0 then heapSort_func less data a b
    else
      let limit := if !wasBalanced then limit - 1 else limit
      let prep := pdqPrepare less data a b wasBalanced wasPartitioned
      if prep.2.2 then prep.1
      else if decide (0 < a) && !lessAt less prep.1 (a - 1) prep.2.1 then
        let eq := partitionEqual_func less prep.1 a b prep.2.1
        pdqsort_func less fuel eq.1 eq.2 b limit wasBalanced wasPartitioned
      else
        let parted := partition_func less prep.1 a b prep.2.1
        let mid := parted.2.1
        if mid - a < b - mid then
          pdqsort_func less fuel (pdqsort_func less fuel parted.1 a mid limit true true)
            (mid + 1) b limit (decide ((b - a) / 8 ≤ mid - a)) parted.2.2
        else
          pdqsort_func less fuel (pdqsort_func less fuel parted.1 (mid + 1) b limit true true)
            a mid limit (decide ((b - a) / 8 ≤ b - mid)) parted.2.2

/-- The function `sort.Slice`:
`pdqsort_func(lessSwap{less, swap}, 0, length, bits.Len(uint(length)))`. -/
def sort_Slice {α : Type} (less : α → α → Bool) (x : List α) : List α :=
  pdqsort_func less (x.length + 1) x 0 x.length (bitsLen 64 x.length) true true

/-! ## Vocabulary of the sorting proof -/

/-- The part `data[a:b]` is in order: no element is less than an earlier one. -/
def SortedRange {α : Type} (less : α → α → Bool) (d : List α) (a b : Nat) : Prop :=
  ∀ i j x y, a ≤ i → i < j → j < b → d[i]? = some x → d[j]? = some y → less y x = false

/-- The list `d'` comes from `d` by rearranging `data[a:b]` only: same length,
same elements outside the part, and whatever holds of every element of the
part of `d` holds of every element of the part of `d'`. -/
def RangeStep {α : Type} (a b : Nat) (d d' : List α) : Prop :=
  d'.length = d.length ∧ (∀ k, (k < a ∨ b ≤ k) → d'[k]? = d[k]?) ∧
    (∀ P : α → Prop, (∀ k x, a ≤ k → k < b → d[k]? = some x → P x) →
      ∀ k x, a ≤ k → k < b → d'[k]? = some x → P x) ∧ d'.Perm d

/-- Every element of `data[a:b]` is at least the element just before the part
(when there is one): the situation of a part to the right of a pivot. -/
def LowerBounded {α : Type} (less : α → α → Bool) (d : List α) (a b : Nat) : Prop :=
  a = 0 ∨ ∃ y, d[a - 1]? = some y ∧ ∀ m x, a ≤ m → m < b → d[m]? = some x → less x y = false

/-- Where index `k` of the swapped list takes its element from. -/
def swapIdx (i j k : Nat) : Nat := if k = j then i else if k = i then j else k

/-! ## Vocabulary of the properties -/

/-- Order of instants: `t` is not after `u` (seconds first, then nanoseconds);
the zone a `Time` carries plays no part. -/
def Time.instantLE (t u : Time) : Prop :=
  t.sec < u.sec ∨ (t.sec = u.sec ∧ t.nsec ≤ u.nsec)

/-- Strict order of instants: `t` is before `u`. -/
def Time.instantLT (t u : Time) : Prop :=
  t.sec < u.sec ∨ (t.sec = u.sec ∧ t.nsec < u.nsec)

instance (t u : Time) : Decidable (t.instantLE u) :=
  inferInstanceAs (Decidable (t.sec < u.sec ∨ (t.sec = u.sec ∧ t.nsec ≤ u.nsec)))

instance (t u : Time) : Decidable (t.instantLT u) :=
  inferInstanceAs (Decidable (t.sec < u.sec ∨ (t.sec = u.sec ∧ t.nsec < u.nsec)))

/-- The event list a source delivers: the items of its answer, nothing for a
failed request. -/
def Source.items (src : Source) : List Event :=
  match src.response with
  | .ok calendarItems => calendarItems
  | .error _ => []

/-- Whether the request of a source succeeds. -/
def Source.succeeds (src : Source) : Bool :=
  match src.response with
  | .ok _ => true
  | .error _ => false

/-- The sources that precede the first failing source, in configuration order. -/
def sourcesBeforeFailure (sources : List Source) : List Source :=
  sources.takeWhile Source.succeeds

/-- The concatenation of the event lists of the given sources, in order. -/
def concatItems (sources : List Source) : List Event :=
  (sources.map Source.items).flatten

/-! ## Sample data -/

/-- A timed event. -/
def timedEvent (title dateTime : String) : Event := ⟨title, "", ⟨"", dateTime⟩⟩

/-- An all-day event. -/
def allDayEvent (title date : String) : Event := ⟨title, "", ⟨date, ""⟩⟩

/-- Two calendars that answer and, between them, one whose request fails. -/
def sampleSources : List Source :=
  [⟨"work", .ok [timedEvent "standup" "2024-03-15T09:00:00+03:00",
                 timedEvent "review" "2024-03-14T18:30:00+03:00"]⟩,
   ⟨"home", .ok [allDayEvent "birthday" "2024-03-16",
                 timedEvent "review" "2024-03-14T18:30:00+03:00"]⟩,
   ⟨"club", .error "googleapi: Error 404: Not Found"⟩,
   ⟨"team", .ok [timedEvent "retro" "2024-03-14T11:00:00+03:00"]⟩]

/-- Two calendars that both answer and share one event. -/
def sampleSourcesOk : List Source :=
  [⟨"work", .ok [timedEvent "standup" "2024-03-15T09:00:00+03:00",
                 timedEvent "review" "2024-03-14T18:30:00+03:00"]⟩,
   ⟨"home", .ok [allDayEvent "birthday" "2024-03-16",
                 timedEvent "review" "2024-03-14T18:30:00+03:00"]⟩]

/-- Stability of a sort from `input` to `out`: of two different events with
the same effective instant, the one that comes first in `input` also comes
first in `out`. -/
def StableOrder (input out : List Event) : Prop :=
  ∀ a b, a ≠ b →
    (effectiveInstant a).sec = (effectiveInstant b).sec →
    (effectiveInstant a).nsec = (effectiveInstant b).nsec →
    [a, b].Sublist input → [a, b].Sublist out

/-- One calendar with a meeting at 10:00 and a second calendar with twelve
events that all start at 09:00 on the same day. -/
def unstableSources : List Source :=
  [⟨"work", .ok [timedEvent "m00" "2024-03-15T10:00:00+03:00"]⟩,
   ⟨"home", .ok [timedEvent "e01" "2024-03-15T09:00:00+03:00",
                 timedEvent "e02" "2024-03-15T09:00:00+03:00",
                 timedEvent "e03" "2024-03-15T09:00:00+03:00",
                 timedEvent "e04" "2024-03-15T09:00:00+03:00",
                 timedEvent "e05" "2024-03-15T09:00:00+03:00",
                 timedEvent "e06" "2024-03-15T09:00:00+03:00",
                 timedEvent "e07" "2024-03-15T09:00:00+03:00",
                 timedEvent "e08" "2024-03-15T09:00:00+03:00",
                 timedEvent "e09" "2024-03-15T09:00:00+03:00",
                 timedEvent "e10" "2024-03-15T09:00:00+03:00",
                 timedEvent "e11" "2024-03-15T09:00:00+03:00",
                 timedEvent "e12" "2024-03-15T09:00:00+03:00"]⟩]

/-- A world in which the clock and the display zone are UTC+3, nothing is
cached, the configuration decodes and the one calendar answers with the given
events. -/
def sampleWorld (now : Int) (events : List Event) : World :=
  { fs := fun _ => none, now := now, tzLocal := FixedZone 10800, loc := FixedZone 10800,
    decodeFile := .ok true, newService := .ok (), sources := [⟨"work", .ok events⟩],
    writeOk := true }

/-- The text `YYYY-MM-DD` of a calendar date. -/
def formatDate (year month day : Nat) : String :=
  String.mk (appendInt year 4 ++ ['-'] ++ appendInt month 2 ++ ['-'] ++ appendInt day 2)

/-- The zone part of an RFC3339 text: `Z` (`none`), or a sign (`true` is
minus), two digits of hours, a colon and two digits of minutes. -/
def formatZone (zone : Option (Bool × Nat × Nat)) : List Char :=
  match zone with
  | none => ['Z']
  | some (neg, h, m) => (if neg then '-' else '+') :: (appendInt h 2 ++ [':'] ++ appendInt m 2)

/-- The offset east of UTC, in seconds, that a zone part stands for. -/
def zoneSeconds (zone : Option (Bool × Nat × Nat)) : Int :=
  match zone with
  | none => 0
  | some (neg, h, m) => if neg then -(((h * 60 + m) * 60 : Nat) : Int) else ((h * 60 + m) * 60 : Nat)

/-- The RFC3339 text `YYYY-MM-DDTHH:MM:SS` followed by the zone part. -/
def formatRFC3339 (year month day hour min sec : Nat) (zone : Option (Bool × Nat × Nat)) :
    String :=
  String.mk (appendInt year 4 ++ ['-'] ++ appendInt month 2 ++ ['-'] ++ appendInt day 2 ++ ['T']
    ++ appendInt hour 2 ++ [':'] ++ appendInt min 2 ++ [':'] ++ appendInt sec 2
    ++ formatZone zone)

/-! # Properties -/

/-! ## Order of instants -/

theorem before_iff (t u : Time) : t.Before u = true ↔ t.instantLT u := by
  simp [Time.Before, Time.instantLT]

theorem before_false_iff (t u : Time) : t.Before u = false ↔ u.instantLE t := by
  rw [← Bool.not_eq_true, before_iff]
  simp only [Time.instantLT, Time.instantLE]
  omega

theorem eventLess_strictWeak : StrictWeakOrder eventLess := by
  constructor
  · intro a
    rw [eventLess, before_false_iff]
    exact Or.inr ⟨rfl, le_refl _⟩
  · intro a b c h1 h2
    simp only [eventLess, before_iff, Time.instantLT] at h1 h2 ⊢
    omega
  · intro a b c h1 h2 h3 h4
    simp only [eventLess, before_false_iff, Time.instantLE] at h1 h2 h3 h4 ⊢
    omega

/-! ## The loop over the calendars -/

theorem fetchLoop_items (sources : List Source) (st : FetchState) :
    (fetchLoop sources st).items = st.items ++ concatItems (sourcesBeforeFailure sources) := by
  induction sources generalizing st with
  | nil => simp [fetchLoop, sourcesBeforeFailure, concatItems]
  | cons src rest ih =>
    cases hr : src.response with
    | error e =>
      simp [fetchLoop, hr, sourcesBeforeFailure, concatItems, List.takeWhile, Source.succeeds]
    | ok l =>
      simp only [fetchLoop, hr, ih]
      simp [sourcesBeforeFailure, concatItems, List.takeWhile, Source.succeeds, hr, Source.items]

theorem fetchLoop_requests (sources : List Source) (st : FetchState) :
    (fetchLoop sources st).requests = st.requests ++
      (sources.take ((sourcesBeforeFailure sources).length + 1)).map Source.calendarID := by
  induction sources generalizing st with
  | nil => simp [fetchLoop]
  | cons src rest ih =>
    cases hr : src.response with
    | error e =>
      simp [fetchLoop, hr, sourcesBeforeFailure, List.takeWhile, Source.succeeds]
    | ok l =>
      simp only [fetchLoop, hr, ih]
      simp [sourcesBeforeFailure, List.takeWhile, Source.succeeds, hr]

theorem sourcesBeforeFailure_all (sources : List Source)
    (h : ∀ src ∈ sources, src.succeeds = true) : sourcesBeforeFailure sources = sources := by
  induction sources with
  | nil => rfl
  | cons src rest ih =>
    have h1 : src.succeeds = true := h src (by simp)
    simp only [sourcesBeforeFailure, List.takeWhile, h1]
    congr 1
    exact ih (fun s hs => h s (by simp [hs]))

/-! ## Strict weak orderings -/

theorem StrictWeakOrder.asymm {α : Type} {less : α → α → Bool} (h : StrictWeakOrder less)
    {a b : α} (hab : less a b = true) : less b a = false := by
  cases hba : less b a with
  | false => rfl
  | true =>
    have := h.trans a b a hab hba
    rw [h.irrefl a] at this
    exact this.symm

theorem StrictWeakOrder.negTrans {α : Type} {less : α → α → Bool} (h : StrictWeakOrder less)
    {x y z : α} (hxy : less x y = false) (hyz : less y z = false) : less x z = false := by
  cases hxz : less x z with
  | false => rfl
  | true =>
    cases hyx : less y x with
    | true =>
      have := h.trans y x z hyx hxz
      rw [hyz] at this
      exact this.symm
    | false =>
      cases hzy : less z y with
      | true =>
        have := h.trans x z y hxz hzy
        rw [hxy] at this
        exact this.symm
      | false =>
        have := (h.incomp_trans x y z hxy hyx hyz hzy).1
        rw [hxz] at this
        exact this

/-! ## `data.Less` and `data.Swap` on a list -/

theorem swapAt_length {α : Type} (d : List α) (i j : Nat) :
    (swapAt d i j).length = d.length := by
  unfold swapAt
  split <;> simp

theorem swapAt_eq {α : Type} (d : List α) (i j : Nat) (x y : α)
    (hx : d[i]? = some x) (hy : d[j]? = some y) :
    swapAt d i j = (d.set i y).set j x := by
  simp [swapAt, hx, hy]

theorem cons_set_perm {α : Type} (t : List α) (k : Nat) (x y : α) (h : t[k]? = some y) :
    (y :: t.set k x).Perm (x :: t) := by
  induction t generalizing k with
  | nil => simp at h
  | cons c t ih =>
    cases k with
    | zero =>
      simp at h
      subst h
      exact List.Perm.swap _ _ _
    | succ k =>
      simp at h
      simp only [List.set_cons_succ]
      exact (List.Perm.swap c y _).trans (((ih k h).cons c).trans (List.Perm.swap x c _))

theorem set_set_perm_lt {α : Type} (d : List α) (i j : Nat) (x y : α) (hij : i < j)
    (hx : d[i]? = some x) (hy : d[j]? = some y) : ((d.set i y).set j x).Perm d := by
  induction d generalizing i j with
  | nil => simp at hx
  | cons c t ih =>
    cases j with
    | zero => omega
    | succ j =>
      cases i with
      | zero =>
        simp at hx hy
        subst hx
        simpa using cons_set_perm t j c y hy
      | succ i =>
        simp at hx hy
        simpa using (ih i j (by omega) hx hy)

theorem swapAt_perm {α : Type} (d : List α) (i j : Nat) : (swapAt d i j).Perm d := by
  unfold swapAt
  split
  · rename_i x y hx hy
    rw [List.get?_eq_getElem?] at hx hy
    rcases Nat.lt_trichotomy i j with h | h | h
    · exact set_set_perm_lt d i j x y h hx hy
    · subst h
      have hxy : x = y := by rw [hx] at hy; exact Option.some.inj hy
      subst hxy
      have hlt : i < d.length := by
        by_contra hc
        rw [List.getElem?_eq_none (by omega)] at hx
        exact absurd hx (by simp)
      have e : d.set i x = d := by
        apply List.ext_getElem?
        intro k
        by_cases hk : k = i
        · subst hk; simp [hlt, hx]
        · simp [List.getElem?_set_ne (Ne.symm hk)]
      rw [List.set_set, e]
    · rw [List.set_comm y x d (by omega : i ≠ j)]
      exact set_set_perm_lt d j i y x h hy hx
  · exact List.Perm.refl _

theorem getElem?_swapAt {α : Type} (d : List α) (i j k : Nat)
    (hi : i < d.length) (hj : j < d.length) :
    (swapAt d i j)[k]? = if k = j then d[i]? else if k = i then d[j]? else d[k]? := by
  have hx : d[i]? = some d[i] := List.getElem?_eq_getElem hi
  have hy : d[j]? = some d[j] := List.getElem?_eq_getElem hj
  rw [swapAt_eq d i j _ _ hx hy]
  by_cases hkj : k = j
  · subst hkj
    simp [hx, hj]
  · by_cases hki : k = i
    · subst hki
      rw [List.getElem?_set_ne (Ne.symm hkj)]
      simp [hkj, hy, hi]
    · rw [List.getElem?_set_ne (Ne.symm hkj), List.getElem?_set_ne (Ne.symm hki)]
      simp [hkj, hki]

theorem lessAt_eq {α : Type} (less : α → α → Bool) (d : List α) (i j : Nat) (x y : α)
    (hx : d[i]? = some x) (hy : d[j]? = some y) : lessAt less d i j = less x y := by
  simp [lessAt, hx, hy]

theorem RangeStep.refl {α : Type} (a b : Nat) (d : List α) : RangeStep a b d d :=
  ⟨rfl, fun _ _ => rfl, fun _ h => h, List.Perm.refl _⟩

theorem RangeStep.trans {α : Type} {a b : Nat} {d1 d2 d3 : List α}
    (h1 : RangeStep a b d1 d2) (h2 : RangeStep a b d2 d3) : RangeStep a b d1 d3 :=
  ⟨h2.1.trans h1.1, fun k hk => (h2.2.1 k hk).trans (h1.2.1 k hk),
    fun P hP => h2.2.2.1 P (h1.2.2.1 P hP), h2.2.2.2.trans h1.2.2.2⟩

theorem RangeStep.mono {α : Type} {a b a' b' : Nat} {d d' : List α}
    (h : RangeStep a' b' d d') (ha : a ≤ a') (hb : b' ≤ b) : RangeStep a b d d' := by
  refine ⟨h.1, fun k hk => h.2.1 k (by omega), ?_, h.2.2.2⟩
  intro P hP k x hak hkb hx
  by_cases hin : a' ≤ k ∧ k < b'
  · exact h.2.2.1 P (fun k x h1 h2 h3 => hP k x (by omega) (by omega) h3) k x hin.1 hin.2 hx
  · rw [h.2.1 k (by omega)] at hx
    exact hP k x hak hkb hx

theorem RangeStep_swapAt {α : Type} (a b : Nat) (d : List α) (i j : Nat)
    (hai : a ≤ i) (hib : i < b) (haj : a ≤ j) (hjb : j < b) (hb : b ≤ d.length) :
    RangeStep a b d (swapAt d i j) := by
  have hi : i < d.length := by omega
  have hj : j < d.length := by omega
  refine ⟨swapAt_length d i j, ?_, ?_, swapAt_perm d i j⟩
  · intro k hk
    rw [getElem?_swapAt d i j k hi hj, if_neg (by omega), if_neg (by omega)]
  · intro P hP k x hak hkb hx
    rw [getElem?_swapAt d i j k hi hj] at hx
    split at hx
    · exact hP i x hai hib hx
    · split at hx
      · exact hP j x haj hjb hx
      · exact hP k x hak hkb hx

theorem StrictWeakOrder.less_of_le_of_less {α : Type} {less : α → α → Bool}
    (h : StrictWeakOrder less) {x y z : α}
    (hxy : less y x = false) (hyz : less y z = true) : less x z = true := by
  cases hxz : less x z with
  | true => rfl
  | false =>
    have := h.negTrans hxy hxz
    rw [hyz] at this
    exact absurd this (by simp)

/-! ## `insertionSort_func` -/

theorem insertionInner_spec {α : Type} {less : α → α → Bool} (h : StrictWeakOrder less)
    (a m : Nat) (j : Nat) (d : List α) (haj : a ≤ j) (hjm : j ≤ m) (hm : m < d.length)
    (inv : ∀ p q x y, a ≤ p → p < q → q ≤ m → q ≠ j → d[p]? = some x → d[q]? = some y →
      less y x = false) :
    SortedRange less (insertionInner less a j d) a (m + 1) ∧
      RangeStep a (m + 1) d (insertionInner less a j d) := by
  induction j generalizing d with
  | zero =>
    refine ⟨?_, RangeStep.refl _ _ _⟩
    intro p q x y hp hpq hq hx hy
    exact inv p q x y hp hpq (by omega) (by omega) hx hy
  | succ j ih =>
    unfold insertionInner
    have hj1 : j + 1 < d.length := by omega
    have hj0 : j < d.length := by omega
    have ex : d[j + 1]? = some d[j + 1] := List.getElem?_eq_getElem hj1
    have ey : d[j]? = some d[j] := List.getElem?_eq_getElem hj0
    by_cases hc : (decide (a < j + 1) && lessAt less d (j + 1) j) = true
    · rw [if_pos hc]
      simp only [Bool.and_eq_true, decide_eq_true_eq] at hc
      have hlt : less d[j + 1] d[j] = true := by
        rw [← lessAt_eq less d (j + 1) j _ _ ex ey]; exact hc.2
      have hstep := RangeStep_swapAt a (m + 1) d (j + 1) j (by omega) (by omega) (by omega)
        (by omega) (by omega)
      have hlen := swapAt_length d (j + 1) j
      have := ih (swapAt d (j + 1) j) (by omega) (by omega) (by omega) (by
        intro p q x y hp hpq hq hne hx hy
        rw [getElem?_swapAt d (j + 1) j _ hj1 hj0] at hx hy
        by_cases hq1 : q = j + 1
        · subst hq1
          rw [if_neg (by omega), if_pos rfl, ey] at hy
          have hy' : y = d[j] := (Option.some.inj hy).symm
          by_cases hp1 : p = j
          · rw [if_pos hp1, ex] at hx
            have hx' : x = d[j + 1] := (Option.some.inj hx).symm
            rw [hx', hy']
            exact h.asymm hlt
          · rw [if_neg hp1, if_neg (by omega)] at hx
            rw [hy']
            exact inv p j x d[j] hp (by omega) (by omega) (by omega) hx ey
        · rw [if_neg hne, if_neg hq1] at hy
          by_cases hp1 : p = j
          · rw [if_pos hp1, ex] at hx
            have hx' : x = d[j + 1] := (Option.some.inj hx).symm
            rw [hx']
            exact inv (j + 1) q _ y (by omega) (by omega) hq hq1 ex hy
          · by_cases hp2 : p = j + 1
            · subst hp2
              rw [if_neg hp1, if_pos rfl, ey] at hx
              have hx' : x = d[j] := (Option.some.inj hx).symm
              rw [hx']
              exact inv j q _ y (by omega) (by omega) hq hq1 ey hy
            · rw [if_neg hp1, if_neg hp2] at hx
              exact inv p q x y hp hpq hq hq1 hx hy)
      exact ⟨this.1, hstep.trans this.2⟩
    · rw [if_neg hc]
      refine ⟨?_, RangeStep.refl _ _ _⟩
      intro p q x y hp hpq hq hx hy
      by_cases hq1 : q = j + 1
      · subst hq1
        simp only [Bool.and_eq_true, decide_eq_true_eq, not_and, Bool.not_eq_true] at hc
        have hle : less d[j + 1] d[j] = false := by
          rw [← lessAt_eq less d (j + 1) j _ _ ex ey]; exact hc (by omega)
        rw [ex] at hy
        have hy' : y = d[j + 1] := (Option.some.inj hy).symm
        rw [hy']
        by_cases hp1 : p = j
        · rw [hp1, ey] at hx
          rw [← Option.some.inj hx]
          exact hle
        · have := inv p j x d[j] hp (by omega) (by omega) (by omega) hx ey
          exact h.negTrans hle this
      · exact inv p q x y hp hpq (by omega) hq1 hx hy

theorem insertionOuter_spec {α : Type} {less : α → α → Bool} (h : StrictWeakOrder less)
    (a b : Nat) (fuel i : Nat) (d : List α) (hai : a < i) (hb : b ≤ d.length)
    (hfuel : b - i ≤ fuel) (hs : SortedRange less d a i) (hib : i ≤ b) :
    SortedRange less (insertionOuter less a b fuel i d) a b ∧
      RangeStep a b d (insertionOuter less a b fuel i d) := by
  induction fuel generalizing i d with
  | zero =>
    have : i = b := by omega
    subst this
    exact ⟨hs, RangeStep.refl _ _ _⟩
  | succ fuel ih =>
    unfold insertionOuter
    by_cases hlt : i < b
    · rw [if_pos hlt]
      have inner := insertionInner_spec h a i i d (by omega) (le_refl _) (by omega) (by
        intro p q x y hp hpq hq hne hx hy
        exact hs p q x y hp hpq (by omega) hx hy)
      have hlen := inner.2.1
      have := ih (i + 1) (insertionInner less a i d) (by omega) (by omega) (by omega) inner.1
        (by omega)
      exact ⟨this.1, (inner.2.mono (le_refl _) (by omega)).trans this.2⟩
    · rw [if_neg hlt]
      have : i = b := by omega
      subst this
      exact ⟨hs, RangeStep.refl _ _ _⟩

theorem insertionSort_func_spec {α : Type} {less : α → α → Bool} (h : StrictWeakOrder less)
    (d : List α) (a b : Nat) (hb : b ≤ d.length) :
    SortedRange less (insertionSort_func less d a b) a b ∧
      RangeStep a b d (insertionSort_func less d a b) := by
  unfold insertionSort_func
  by_cases hab : a + 1 ≤ b
  · exact insertionOuter_spec h a b (b - a) (a + 1) d (by omega) hb (by omega)
      (by intro i j x y h1 h2 h3; omega) hab
  · have hz : b - a = 0 := by omega
    rw [hz]
    unfold insertionOuter
    refine ⟨?_, RangeStep.refl _ _ _⟩
    intro i j x y h1 h2 h3
    omega

/-! ## The scanning loops of `partition_func` and `partitionEqual_func` -/

theorem scanUp_spec {α : Type} (less : α → α → Bool) (d : List α) (a j : Nat) (fuel i : Nat)
    (hfuel : j + 1 - i ≤ fuel) (hi : i ≤ j + 1) :
    i ≤ scanUp less d a j fuel i ∧ scanUp less d a j fuel i ≤ j + 1 ∧
      (∀ k, i ≤ k → k < scanUp less d a j fuel i → lessAt less d k a = true) ∧
      (scanUp less d a j fuel i ≤ j → lessAt less d (scanUp less d a j fuel i) a = false) := by
  induction fuel generalizing i with
  | zero =>
    have : i = j + 1 := by omega
    subst this
    simp only [scanUp]
    refine ⟨le_refl _, le_refl _, fun k h1 h2 => by omega, fun h => by omega⟩
  | succ fuel ih =>
    unfold scanUp
    by_cases hc : (decide (i ≤ j) && lessAt less d i a) = true
    · rw [if_pos hc]
      simp only [Bool.and_eq_true, decide_eq_true_eq] at hc
      obtain ⟨h1, h2, h3, h4⟩ := ih (i + 1) (by omega) (by omega)
      refine ⟨by omega, h2, ?_, h4⟩
      intro k hk1 hk2
      by_cases hki : k = i
      · rw [hki]; exact hc.2
      · exact h3 k (by omega) hk2
    · rw [if_neg hc]
      simp only [Bool.and_eq_true, decide_eq_true_eq, not_and, Bool.not_eq_true] at hc
      exact ⟨le_refl _, hi, fun k h1 h2 => by omega, hc⟩

theorem scanDown_spec {α : Type} (less : α → α → Bool) (d : List α) (a i : Nat) (fuel j : Nat)
    (hfuel : j + 1 - i ≤ fuel) (hi1 : 1 ≤ i) (hij : i ≤ j + 1) :
    scanDown less d a i fuel j ≤ j ∧ i ≤ scanDown less d a i fuel j + 1 ∧
      (∀ k, scanDown less d a i fuel j < k → k ≤ j → lessAt less d k a = false) ∧
      (i ≤ scanDown less d a i fuel j → lessAt less d (scanDown less d a i fuel j) a = true) := by
  induction fuel generalizing j with
  | zero =>
    have : i = j + 1 := by omega
    subst this
    simp only [scanDown]
    refine ⟨le_refl _, le_refl _, fun k h1 h2 => by omega, fun h => by omega⟩
  | succ fuel ih =>
    unfold scanDown
    by_cases hc : (decide (i ≤ j) && !lessAt less d j a) = true
    · rw [if_pos hc]
      simp only [Bool.and_eq_true, decide_eq_true_eq, Bool.not_eq_true'] at hc
      obtain ⟨h1, h2, h3, h4⟩ := ih (j - 1) (by omega) (by omega)
      refine ⟨by omega, h2, ?_, h4⟩
      intro k hk1 hk2
      by_cases hkj : k = j
      · rw [hkj]; exact hc.2
      · exact h3 k hk1 (by omega)
    · rw [if_neg hc]
      simp only [Bool.and_eq_true, decide_eq_true_eq, Bool.not_eq_true', not_and,
        Bool.not_eq_false] at hc
      exact ⟨le_refl _, hij, fun k h1 h2 => by omega, hc⟩

theorem scanUpEqual_spec {α : Type} (less : α → α → Bool) (d : List α) (a j : Nat)
    (fuel i : Nat) (hfuel : j + 1 - i ≤ fuel) (hi : i ≤ j + 1) :
    i ≤ scanUpEqual less d a j fuel i ∧ scanUpEqual less d a j fuel i ≤ j + 1 ∧
      (∀ k, i ≤ k → k < scanUpEqual less d a j fuel i → lessAt less d a k = false) ∧
      (scanUpEqual less d a j fuel i ≤ j →
        lessAt less d a (scanUpEqual less d a j fuel i) = true) := by
  induction fuel generalizing i with
  | zero =>
    have : i = j + 1 := by omega
    subst this
    simp only [scanUpEqual]
    refine ⟨le_refl _, le_refl _, fun k h1 h2 => by omega, fun h => by omega⟩
  | succ fuel ih =>
    unfold scanUpEqual
    by_cases hc : (decide (i ≤ j) && !lessAt less d a i) = true
    · rw [if_pos hc]
      simp only [Bool.and_eq_true, decide_eq_true_eq, Bool.not_eq_true'] at hc
      obtain ⟨h1, h2, h3, h4⟩ := ih (i + 1) (by omega) (by omega)
      refine ⟨by omega, h2, ?_, h4⟩
      intro k hk1 hk2
      by_cases hki : k = i
      · rw [hki]; exact hc.2
      · exact h3 k (by omega) hk2
    · rw [if_neg hc]
      simp only [Bool.and_eq_true, decide_eq_true_eq, Bool.not_eq_true', not_and,
        Bool.not_eq_false] at hc
      exact ⟨le_refl _, hi, fun k h1 h2 => by omega, hc⟩

theorem scanDownEqual_spec {α : Type} (less : α → α → Bool) (d : List α) (a i : Nat)
    (fuel j : Nat) (hfuel : j + 1 - i ≤ fuel) (hi1 : 1 ≤ i) (hij : i ≤ j + 1) :
    scanDownEqual less d a i fuel j ≤ j ∧ i ≤ scanDownEqual less d a i fuel j + 1 ∧
      (∀ k, scanDownEqual less d a i fuel j < k → k ≤ j → lessAt less d a k = true) ∧
      (i ≤ scanDownEqual less d a i fuel j →
        lessAt less d a (scanDownEqual less d a i fuel j) = false) := by
  induction fuel generalizing j with
  | zero =>
    have : i = j + 1 := by omega
    subst this
    simp only [scanDownEqual]
    refine ⟨le_refl _, le_refl _, fun k h1 h2 => by omega, fun h => by omega⟩
  | succ fuel ih =>
    unfold scanDownEqual
    by_cases hc : (decide (i ≤ j) && lessAt less d a j) = true
    · rw [if_pos hc]
      simp only [Bool.and_eq_true, decide_eq_true_eq] at hc
      obtain ⟨h1, h2, h3, h4⟩ := ih (j - 1) (by omega) (by omega)
      refine ⟨by omega, h2, ?_, h4⟩
      intro k hk1 hk2
      by_cases hkj : k = j
      · rw [hkj]; exact hc.2
      · exact h3 k hk1 (by omega)
    · rw [if_neg hc]
      simp only [Bool.and_eq_true, decide_eq_true_eq, not_and, Bool.not_eq_true] at hc
      exact ⟨le_refl _, hij, fun k h1 h2 => by omega, hc⟩

/-! ## `partition_func` -/

theorem partitionLoop_spec {α : Type} (less : α → α → Bool) (p : α) (a b : Nat)
    (fuel i j : Nat) (d : List α) (hb : b ≤ d.length) (hai : a + 1 ≤ i) (hjb : j + 1 ≤ b)
    (hij : i ≤ j + 1) (hfuel : j + 1 - i < fuel) (hp : d[a]? = some p)
    (hlo : ∀ k x, a + 1 ≤ k → k < i → d[k]? = some x → less x p = true)
    (hhi : ∀ k x, j < k → k < b → d[k]? = some x → less x p = false) :
    a ≤ (partitionLoop less a fuel i j d).2 ∧ (partitionLoop less a fuel i j d).2 < b ∧
      (partitionLoop less a fuel i j d).1[a]? = some p ∧
      RangeStep (a + 1) b d (partitionLoop less a fuel i j d).1 ∧
      (∀ k x, a + 1 ≤ k → k ≤ (partitionLoop less a fuel i j d).2 →
        (partitionLoop less a fuel i j d).1[k]? = some x → less x p = true) ∧
      (∀ k x, (partitionLoop less a fuel i j d).2 < k → k < b →
        (partitionLoop less a fuel i j d).1[k]? = some x → less x p = false) := by
  induction fuel generalizing i j d with
  | zero => omega
  | succ fuel ih =>
    unfold partitionLoop
    simp only []
    obtain ⟨u1, u2, u3, u4⟩ := scanUp_spec less d a j (j + 1) i (by omega) hij
    generalize scanUp less d a j (j + 1) i = i' at u1 u2 u3 u4 ⊢
    obtain ⟨w1, w2, w3, w4⟩ := scanDown_spec less d a i' (j + 1) j (by omega) (by omega) u2
    generalize scanDown less d a i' (j + 1) j = j' at w1 w2 w3 w4 ⊢
    have hlo' : ∀ k x, a + 1 ≤ k → k < i' → d[k]? = some x → less x p = true := by
      intro k x h1 h2 hx
      by_cases hk : k < i
      · exact hlo k x h1 hk hx
      · rw [← lessAt_eq less d k a x p hx hp]
        exact u3 k (by omega) h2
    have hhi' : ∀ k x, j' < k → k < b → d[k]? = some x → less x p = false := by
      intro k x h1 h2 hx
      by_cases hk : j < k
      · exact hhi k x hk h2 hx
      · rw [← lessAt_eq less d k a x p hx hp]
        exact w3 k h1 (by omega)
    by_cases hc : j' < i'
    · rw [if_pos hc]
      refine ⟨by omega, by omega, hp, RangeStep.refl _ _ _, ?_, hhi'⟩
      intro k x h1 h2 hx
      exact hlo' k x h1 (by omega) hx
    · rw [if_neg hc]
      have hi'len : i' < d.length := by omega
      have hj'len : j' < d.length := by omega
      have ei : d[i']? = some d[i'] := List.getElem?_eq_getElem hi'len
      have ej : d[j']? = some d[j'] := List.getElem?_eq_getElem hj'len
      have hiF : less d[i'] p = false := by
        rw [← lessAt_eq less d i' a _ p ei hp]; exact u4 (by omega)
      have hjT : less d[j'] p = true := by
        rw [← lessAt_eq less d j' a _ p ej hp]; exact w4 (by omega)
      have hne : i' ≠ j' := by
        intro he
        have e2 : d[i'] = d[j'] := by
          have : d[i']? = d[j']? := by rw [he]
          rw [ei, ej] at this
          exact Option.some.inj this
        rw [e2, hjT] at hiF
        exact absurd hiF (by simp)
      have hget := fun k => getElem?_swapAt d i' j' k hi'len hj'len
      have hstep := RangeStep_swapAt (a + 1) b d i' j' (by omega) (by omega) (by omega)
        (by omega) hb
      obtain ⟨r1, r2, r3, r4, r5, r6⟩ := ih (i' + 1) (j' - 1) (swapAt d i' j')
        (by rw [swapAt_length]; exact hb) (by omega) (by omega) (by omega) (by omega)
        (by rw [hget a, if_neg (by omega), if_neg (by omega)]; exact hp)
        (by
          intro k x h1 h2 hx
          rw [hget k] at hx
          by_cases hk : k = i'
          · rw [if_neg (by omega), if_pos hk, ej] at hx
            rw [← Option.some.inj hx]; exact hjT
          · rw [if_neg (by omega), if_neg hk] at hx
            exact hlo' k x h1 (by omega) hx)
        (by
          intro k x h1 h2 hx
          rw [hget k] at hx
          by_cases hk : k = j'
          · rw [if_pos hk, ei] at hx
            rw [← Option.some.inj hx]; exact hiF
          · rw [if_neg hk, if_neg (by omega)] at hx
            exact hhi' k x (by omega) h2 hx)
      exact ⟨r1, by omega, r3, hstep.trans r4, r5, r6⟩

theorem partition_func_spec {α : Type} (less : α → α → Bool) (d : List α) (a b pivot : Nat)
    (p : α) (hb : b ≤ d.length) (hap : a ≤ pivot) (hpb : pivot < b) (hp : d[pivot]? = some p) :
    a ≤ (partition_func less d a b pivot).2.1 ∧ (partition_func less d a b pivot).2.1 < b ∧
      (partition_func less d a b pivot).1[(partition_func less d a b pivot).2.1]? = some p ∧
      RangeStep a b d (partition_func less d a b pivot).1 ∧
      (∀ k x, a ≤ k → k < (partition_func less d a b pivot).2.1 →
        (partition_func less d a b pivot).1[k]? = some x → less x p = true) ∧
      (∀ k x, (partition_func less d a b pivot).2.1 < k → k < b →
        (partition_func less d a b pivot).1[k]? = some x → less x p = false) := by
  unfold partition_func
  simp only []
  have halen : a < d.length := by omega
  have hplen : pivot < d.length := by omega
  have hstep0 := RangeStep_swapAt a b d a pivot (le_refl _) (by omega) hap hpb hb
  have hp0 : (swapAt d a pivot)[a]? = some p := by
    rw [getElem?_swapAt d a pivot a halen hplen]
    by_cases he : a = pivot
    · rw [if_pos he, he]; exact hp
    · rw [if_neg he, if_pos rfl]; exact hp
  have hlen0 : (swapAt d a pivot).length = d.length := swapAt_length _ _ _
  generalize swapAt d a pivot = d0 at hstep0 hp0 hlen0 ⊢
  obtain ⟨u1, u2, u3, u4⟩ := scanUp_spec less d0 a (b - 1) b (a + 1) (by omega) (by omega)
  generalize scanUp less d0 a (b - 1) b (a + 1) = i' at u1 u2 u3 u4 ⊢
  obtain ⟨w1, w2, w3, w4⟩ := scanDown_spec less d0 a i' b (b - 1) (by omega) (by omega) u2
  generalize scanDown less d0 a i' b (b - 1) = j' at w1 w2 w3 w4 ⊢
  have hlo' : ∀ k x, a + 1 ≤ k → k < i' → d0[k]? = some x → less x p = true := by
    intro k x h1 h2 hx
    rw [← lessAt_eq less d0 k a x p hx hp0]
    exact u3 k h1 h2
  have hhi' : ∀ k x, j' < k → k < b → d0[k]? = some x → less x p = false := by
    intro k x h1 h2 hx
    rw [← lessAt_eq less d0 k a x p hx hp0]
    exact w3 k h1 (by omega)
  have ha0 : a < d0.length := by omega
  by_cases hc : j' < i'
  · rw [if_pos hc]
    simp only []
    have hj'len : j' < d0.length := by omega
    have hget := fun k => getElem?_swapAt d0 j' a k hj'len ha0
    have hstep1 := RangeStep_swapAt a b d0 j' a (by omega) (by omega) (le_refl _) (by omega)
      (by omega)
    refine ⟨by omega, by omega, ?_, hstep0.trans hstep1, ?_, ?_⟩
    · rw [hget j']
      by_cases he : j' = a
      · rw [if_pos he, he]; exact hp0
      · rw [if_neg he, if_pos rfl]; exact hp0
    · intro k x h1 h2 hx
      rw [hget k] at hx
      by_cases hk : k = a
      · rw [if_pos hk] at hx
        exact hlo' j' x (by omega) (by omega) hx
      · rw [if_neg hk, if_neg (by omega)] at hx
        exact hlo' k x (by omega) (by omega) hx
    · intro k x h1 h2 hx
      rw [hget k, if_neg (by omega), if_neg (by omega)] at hx
      exact hhi' k x h1 h2 hx
  · rw [if_neg hc]
    have hi'len : i' < d0.length := by omega
    have hj'len : j' < d0.length := by omega
    have ei : d0[i']? = some d0[i'] := List.getElem?_eq_getElem hi'len
    have ej : d0[j']? = some d0[j'] := List.getElem?_eq_getElem hj'len
    have hiF : less d0[i'] p = false := by
      rw [← lessAt_eq less d0 i' a _ p ei hp0]; exact u4 (by omega)
    have hjT : less d0[j'] p = true := by
      rw [← lessAt_eq less d0 j' a _ p ej hp0]; exact w4 (by omega)
    have hne : i' ≠ j' := by
      intro he
      have e2 : d0[i'] = d0[j'] := by
        have : d0[i']? = d0[j']? := by rw [he]
        rw [ei, ej] at this
        exact Option.some.inj this
      rw [e2, hjT] at hiF
      exact absurd hiF (by simp)
    have hget := fun k => getElem?_swapAt d0 i' j' k hi'len hj'len
    have hstep1 := RangeStep_swapAt a b d0 i' j' (by omega) (by omega) (by omega)
      (by omega) (by omega)
    obtain ⟨r1, r2, r3, r4, r5, r6⟩ := partitionLoop_spec less p a b (b - a) (i' + 1) (j' - 1)
      (swapAt d0 i' j') (by rw [swapAt_length]; omega) (by omega) (by omega) (by omega)
      (by omega)
      (by rw [hget a, if_neg (by omega), if_neg (by omega)]; exact hp0)
      (by
        intro k x h1 h2 hx
        rw [hget k] at hx
        by_cases hk : k = i'
        · rw [if_neg (by omega), if_pos hk, ej] at hx
          rw [← Option.some.inj hx]; exact hjT
        · rw [if_neg (by omega), if_neg hk] at hx
          exact hlo' k x h1 (by omega) hx)
      (by
        intro k x h1 h2 hx
        rw [hget k] at hx
        by_cases hk : k = j'
        · rw [if_pos hk, ei] at hx
          rw [← Option.some.inj hx]; exact hiF
        · rw [if_neg hk, if_neg (by omega)] at hx
          exact hhi' k x (by omega) h2 hx)
    generalize partitionLoop less a (b - a) (i' + 1) (j' - 1) (swapAt d0 i' j') = res
      at r1 r2 r3 r4 r5 r6 ⊢
    obtain ⟨d2, j2⟩ := res
    simp only [] at r1 r2 r3 r4 r5 r6 ⊢
    have hlen2 : d2.length = d0.length := by rw [r4.1, swapAt_length]
    have hj2len : j2 < d2.length := by omega
    have ha2 : a < d2.length := by omega
    have hget2 := fun k => getElem?_swapAt d2 j2 a k hj2len ha2
    have hstep2 := RangeStep_swapAt a b d2 j2 a (by omega) (by omega) (le_refl _) (by omega)
      (by omega)
    refine ⟨r1, r2, ?_, hstep0.trans (hstep1.trans ((r4.mono (by omega) (le_refl _)).trans hstep2)),
      ?_, ?_⟩
    · rw [hget2 j2]
      by_cases he : j2 = a
      · rw [if_pos he, he]; exact r3
      · rw [if_neg he, if_pos rfl]; exact r3
    · intro k x h1 h2 hx
      rw [hget2 k] at hx
      by_cases hk : k = a
      · rw [if_pos hk] at hx
        exact r5 j2 x (by omega) (le_refl _) hx
      · rw [if_neg hk, if_neg (by omega)] at hx
        exact r5 k x (by omega) (by omega) hx
    · intro k x h1 h2 hx
      rw [hget2 k, if_neg (by omega), if_neg (by omega)] at hx
      exact r6 k x h1 h2 hx

/-! ## `partitionEqual_func` -/

theorem partitionEqualLoop_spec {α : Type} (less : α → α → Bool) (p : α) (a b : Nat)
    (fuel i j : Nat) (d : List α) (hb : b ≤ d.length) (hai : a + 1 ≤ i) (hjb : j + 1 ≤ b)
    (hij : i ≤ j + 1) (hfuel : j + 1 - i < fuel) (hp : d[a]? = some p)
    (hlo : ∀ k x, a + 1 ≤ k → k < i → d[k]? = some x → less p x = false)
    (hhi : ∀ k x, j < k → k < b → d[k]? = some x → less p x = true) :
    a + 1 ≤ (partitionEqualLoop less a fuel i j d).2 ∧
      (partitionEqualLoop less a fuel i j d).2 ≤ b ∧
      (partitionEqualLoop less a fuel i j d).1[a]? = some p ∧
      RangeStep (a + 1) b d (partitionEqualLoop less a fuel i j d).1 ∧
      (∀ k x, a + 1 ≤ k → k < (partitionEqualLoop less a fuel i j d).2 →
        (partitionEqualLoop less a fuel i j d).1[k]? = some x → less p x = false) ∧
      (∀ k x, (partitionEqualLoop less a fuel i j d).2 ≤ k → k < b →
        (partitionEqualLoop less a fuel i j d).1[k]? = some x → less p x = true) := by
  induction fuel generalizing i j d with
  | zero => omega
  | succ fuel ih =>
    unfold partitionEqualLoop
    simp only []
    obtain ⟨u1, u2, u3, u4⟩ := scanUpEqual_spec less d a j (j + 1) i (by omega) hij
    generalize scanUpEqual less d a j (j + 1) i = i' at u1 u2 u3 u4 ⊢
    obtain ⟨w1, w2, w3, w4⟩ :=
      scanDownEqual_spec less d a i' (j + 1) j (by omega) (by omega) u2
    generalize scanDownEqual less d a i' (j + 1) j = j' at w1 w2 w3 w4 ⊢
    have hlo' : ∀ k x, a + 1 ≤ k → k < i' → d[k]? = some x → less p x = false := by
      intro k x h1 h2 hx
      by_cases hk : k < i
      · exact hlo k x h1 hk hx
      · rw [← lessAt_eq less d a k p x hp hx]
        exact u3 k (by omega) h2
    have hhi' : ∀ k x, j' < k → k < b → d[k]? = some x → less p x = true := by
      intro k x h1 h2 hx
      by_cases hk : j < k
      · exact hhi k x hk h2 hx
      · rw [← lessAt_eq less d a k p x hp hx]
        exact w3 k h1 (by omega)
    by_cases hc : j' < i'
    · rw [if_pos hc]
      refine ⟨by omega, by omega, hp, RangeStep.refl _ _ _, hlo', ?_⟩
      intro k x h1 h2 hx
      exact hhi' k x (by omega) h2 hx
    · rw [if_neg hc]
      have hi'len : i' < d.length := by omega
      have hj'len : j' < d.length := by omega
      have ei : d[i']? = some d[i'] := List.getElem?_eq_getElem hi'len
      have ej : d[j']? = some d[j'] := List.getElem?_eq_getElem hj'len
      have hiT : less p d[i'] = true := by
        rw [← lessAt_eq less d a i' p _ hp ei]; exact u4 (by omega)
      have hjF : less p d[j'] = false := by
        rw [← lessAt_eq less d a j' p _ hp ej]; exact w4 (by omega)
      have hne : i' ≠ j' := by
        intro he
        have e2 : d[i'] = d[j'] := by
          have : d[i']? = d[j']? := by rw [he]
          rw [ei, ej] at this
          exact Option.some.inj this
        rw [e2, hjF] at hiT
        exact absurd hiT (by simp)
      have hget := fun k => getElem?_swapAt d i' j' k hi'len hj'len
      have hstep := RangeStep_swapAt (a + 1) b d i' j' (by omega) (by omega) (by omega)
        (by omega) hb
      obtain ⟨r1, r2, r3, r4, r5, r6⟩ := ih (i' + 1) (j' - 1) (swapAt d i' j')
        (by rw [swapAt_length]; exact hb) (by omega) (by omega) (by omega) (by omega)
        (by rw [hget a, if_neg (by omega), if_neg (by omega)]; exact hp)
        (by
          intro k x h1 h2 hx
          rw [hget k] at hx
          by_cases hk : k = i'
          · rw [if_neg (by omega), if_pos hk, ej] at hx
            rw [← Option.some.inj hx]; exact hjF
          · rw [if_neg (by omega), if_neg hk] at hx
            exact hlo' k x h1 (by omega) hx)
        (by
          intro k x h1 h2 hx
          rw [hget k] at hx
          by_cases hk : k = j'
          · rw [if_pos hk, ei] at hx
            rw [← Option.some.inj hx]; exact hiT
          · rw [if_neg hk, if_neg (by omega)] at hx
            exact hhi' k x (by omega) h2 hx)
      exact ⟨r1, r2, r3, hstep.trans r4, r5, r6⟩

theorem partitionEqual_func_spec {α : Type} {less : α → α → Bool}
    (h : StrictWeakOrder less) (d : List α) (a b pivot : Nat) (p : α) (hb : b ≤ d.length) (hap : a ≤ pivot) (hpb : pivot < b)
    (hp : d[pivot]? = some p) :
    a + 1 ≤ (partitionEqual_func less d a b pivot).2 ∧
      (partitionEqual_func less d a b pivot).2 ≤ b ∧
      RangeStep a b d (partitionEqual_func less d a b pivot).1 ∧
      (∀ k x, a ≤ k → k < (partitionEqual_func less d a b pivot).2 →
        (partitionEqual_func less d a b pivot).1[k]? = some x → less p x = false) ∧
      (∀ k x, (partitionEqual_func less d a b pivot).2 ≤ k → k < b →
        (partitionEqual_func less d a b pivot).1[k]? = some x → less p x = true) := by
  unfold partitionEqual_func
  have halen : a < d.length := by omega
  have hplen : pivot < d.length := by omega
  have hstep0 := RangeStep_swapAt a b d a pivot (le_refl _) (by omega) hap hpb hb
  have hp0 : (swapAt d a pivot)[a]? = some p := by
    rw [getElem?_swapAt d a pivot a halen hplen]
    by_cases he : a = pivot
    · rw [if_pos he, he]; exact hp
    · rw [if_neg he, if_pos rfl]; exact hp
  obtain ⟨r1, r2, r3, r4, r5, r6⟩ := partitionEqualLoop_spec less p a b (b - a) (a + 1) (b - 1)
    (swapAt d a pivot) (by rw [swapAt_length]; exact hb) (le_refl _) (by omega) (by omega)
    (by omega) hp0 (fun k x h1 h2 => by omega) (fun k x h1 h2 => by omega)
  refine ⟨r1, r2, hstep0.trans (r4.mono (by omega) (le_refl _)), ?_, r6⟩
  intro k x h1 h2 hx
  by_cases hk : k = a
  · rw [hk, r3] at hx
    rw [← Option.some.inj hx]
    exact h.irrefl p
  · exact r5 k x (by omega) h2 hx

/-! ## `reverseRange_func`, `breakPatterns_func`, `choosePivot_func` -/

theorem reverseLoop_spec {α : Type} (a b : Nat) (fuel i j : Nat) (d : List α)
    (hb : b ≤ d.length) (hai : a ≤ i) (hjb : j < b) :
    RangeStep a b d (reverseLoop fuel i j d) := by
  induction fuel generalizing i j d with
  | zero => exact RangeStep.refl _ _ _
  | succ fuel ih =>
    unfold reverseLoop
    by_cases hc : i < j
    · rw [if_pos hc]
      have hstep := RangeStep_swapAt a b d i j hai (by omega) (by omega) hjb hb
      exact hstep.trans (ih (i + 1) (j - 1) (swapAt d i j) (by rw [swapAt_length]; exact hb)
        (by omega) (by omega))
    · rw [if_neg hc]
      exact RangeStep.refl _ _ _

theorem reverseRange_func_spec {α : Type} (d : List α) (a b : Nat) (hb : b ≤ d.length)
    (hab : a < b) : RangeStep a b d (reverseRange_func d a b) :=
  reverseLoop_spec a b (b - a) a (b - 1) d hb (le_refl _) (by omega)

theorem two_pow_bitsLen_le (fuel n : Nat) (hn : 1 ≤ n) : 2 ^ bitsLen fuel n ≤ 2 * n := by
  induction fuel generalizing n with
  | zero => simp only [bitsLen]; omega
  | succ fuel ih =>
    unfold bitsLen
    rw [if_neg (by omega)]
    rw [Nat.pow_succ]
    by_cases h2 : 1 ≤ n / 2
    · have := ih (n / 2) h2
      omega
    · have hz : n / 2 = 0 := by omega
      rw [hz]
      have : bitsLen fuel 0 = 0 := by
        cases fuel with
        | zero => rfl
        | succ f => simp [bitsLen]
      rw [this]
      omega

theorem breakPatternsLoop_spec {α : Type} (a b length modulus idx : Nat) (n i random : Nat)
    (d : List α) (hb : b ≤ d.length) (hlen : b = a + length) (hmod : modulus ≤ 2 * length)
    (hmod1 : 1 ≤ modulus) (hlo : a ≤ idx) (hhi : idx + (i + n) ≤ b) :
    RangeStep a b d (breakPatternsLoop a length modulus idx n i random d) := by
  induction n generalizing i random d with
  | zero => exact RangeStep.refl _ _ _
  | succ n ih =>
    unfold breakPatternsLoop
    simp only []
    have hand : xorshiftNext random &&& (modulus - 1) ≤ modulus - 1 := Nat.and_le_right
    generalize xorshiftNext random &&& (modulus - 1) = other at hand ⊢
    have hother : (if length ≤ other then other - length else other) < length := by
      split <;> omega
    generalize (if length ≤ other then other - length else other) = other' at hother ⊢
    have hstep := RangeStep_swapAt a b d (idx + i) (a + other') (by omega) (by omega)
      (by omega) (by omega) hb
    exact hstep.trans (ih (i + 1) _ _ (by rw [swapAt_length]; exact hb) (by omega))

theorem breakPatterns_func_spec {α : Type} (d : List α) (a b : Nat) (hb : b ≤ d.length)
    (hab : a ≤ b) : RangeStep a b d (breakPatterns_func d a b) := by
  unfold breakPatterns_func
  simp only []
  by_cases hc : 8 ≤ b - a
  · rw [if_pos hc]
    have hm := two_pow_bitsLen_le 64 (b - a) (by omega)
    have hm1 : 1 ≤ 2 ^ bitsLen 64 (b - a) := Nat.one_le_two_pow
    rw [Nat.one_shiftLeft]
    exact breakPatternsLoop_spec a b (b - a) _ _ 3 0 (b - a) d hb (by omega) hm hm1 (by omega)
      (by omega)
  · rw [if_neg hc]
    exact RangeStep.refl _ _ _

theorem median_func_mem {α : Type} (less : α → α → Bool) (d : List α) (x y z s : Nat) :
    (median_func less d x y z s).1 = x ∨ (median_func less d x y z s).1 = y ∨
      (median_func less d x y z s).1 = z := by
  unfold median_func order2_func
  by_cases h1 : lessAt less d y x = true
  · by_cases h2 : lessAt less d z x = true
    · by_cases h3 : lessAt less d z y = true <;> simp [h1, h2, h3]
    · by_cases h3 : lessAt less d x y = true <;> simp [h1, h2, h3]
  · by_cases h2 : lessAt less d z y = true
    · by_cases h3 : lessAt less d z x = true <;> simp [h1, h2, h3]
    · by_cases h3 : lessAt less d y x = true <;> simp [h1, h2, h3]

theorem medianAdjacent_func_bounds {α : Type} (less : α → α → Bool) (d : List α) (x s : Nat) :
    x - 1 ≤ (medianAdjacent_func less d x s).1 ∧ (medianAdjacent_func less d x s).1 ≤ x + 1 := by
  unfold medianAdjacent_func
  have := median_func_mem less d (x - 1) x (x + 1) s
  omega

theorem ninther_bounds {α : Type} (less : α → α → Bool) (d : List α) (i j k : Nat) :
    (i - 1 ≤ (ninther less d i j k).1 ∧ (ninther less d i j k).1 ≤ i + 1) ∧
      (j - 1 ≤ (ninther less d i j k).2.1 ∧ (ninther less d i j k).2.1 ≤ j + 1) ∧
      (k - 1 ≤ (ninther less d i j k).2.2.1 ∧ (ninther less d i j k).2.2.1 ≤ k + 1) := by
  unfold ninther
  exact ⟨medianAdjacent_func_bounds less d i 0, medianAdjacent_func_bounds less d j _,
    medianAdjacent_func_bounds less d k _⟩

theorem choosePivot_func_bounds {α : Type} (less : α → α → Bool) (d : List α) (a b : Nat)
    (hab : a < b) :
    a ≤ (choosePivot_func less d a b).1 ∧ (choosePivot_func less d a b).1 < b := by
  unfold choosePivot_func
  simp only []
  by_cases h8 : 8 ≤ b - a
  · rw [if_pos h8]
    by_cases h50 : 50 ≤ b - a
    · rw [if_pos h50]
      have nb := ninther_bounds less d (a + (b - a) / 4 * 1) (a + (b - a) / 4 * 2)
        (a + (b - a) / 4 * 3)
      generalize ninther less d (a + (b - a) / 4 * 1) (a + (b - a) / 4 * 2)
        (a + (b - a) / 4 * 3) = c at nb ⊢
      have m := median_func_mem less d c.1 c.2.1 c.2.2.1 c.2.2.2
      generalize (median_func less d c.1 c.2.1 c.2.2.1 c.2.2.2).1 = r at m ⊢
      have hq : 12 ≤ (b - a) / 4 ∧ 4 * ((b - a) / 4) ≤ b - a := by omega
      generalize (b - a) / 4 = q at nb hq
      obtain ⟨b1, b2, b3⟩ := nb
      show a ≤ r ∧ r < b
      rcases m with m | m | m <;> rw [m] <;> omega
    · rw [if_neg h50]
      have m := median_func_mem less d (a + (b - a) / 4 * 1) (a + (b - a) / 4 * 2)
        (a + (b - a) / 4 * 3) 0
      generalize (median_func less d (a + (b - a) / 4 * 1) (a + (b - a) / 4 * 2)
        (a + (b - a) / 4 * 3) 0).1 = r at m ⊢
      show a ≤ r ∧ r < b
      omega
  · rw [if_neg h8]
    show a ≤ a + (b - a) / 4 * 2 ∧ a + (b - a) / 4 * 2 < b
    omega

/-! ## `partialInsertionSort_func` -/

theorem scanSorted_spec {α : Type} (less : α → α → Bool) (d : List α) (b : Nat) (fuel i : Nat)
    (hfuel : b - i ≤ fuel) (hi : i ≤ b) :
    i ≤ scanSorted less d b fuel i ∧ scanSorted less d b fuel i ≤ b ∧
      (∀ k, i ≤ k → k < scanSorted less d b fuel i → lessAt less d k (k - 1) = false) ∧
      (scanSorted less d b fuel i < b →
        lessAt less d (scanSorted less d b fuel i) (scanSorted less d b fuel i - 1) = true) := by
  induction fuel generalizing i with
  | zero =>
    have : i = b := by omega
    subst this
    simp only [scanSorted]
    exact ⟨le_refl _, le_refl _, fun k h1 h2 => by omega, fun h => by omega⟩
  | succ fuel ih =>
    unfold scanSorted
    by_cases hc : (decide (i < b) && !lessAt less d i (i - 1)) = true
    · rw [if_pos hc]
      simp only [Bool.and_eq_true, decide_eq_true_eq, Bool.not_eq_true'] at hc
      obtain ⟨h1, h2, h3, h4⟩ := ih (i + 1) (by omega) (by omega)
      refine ⟨by omega, h2, ?_, h4⟩
      intro k hk1 hk2
      by_cases hki : k = i
      · rw [hki]; exact hc.2
      · exact h3 k (by omega) hk2
    · rw [if_neg hc]
      simp only [Bool.and_eq_true, decide_eq_true_eq, Bool.not_eq_true', not_and,
        Bool.not_eq_false] at hc
      exact ⟨le_refl _, hi, fun k h1 h2 => by omega, hc⟩

theorem SortedRange_succ {α : Type} {less : α → α → Bool} (h : StrictWeakOrder less)
    (d : List α) (a q : Nat) (hs : SortedRange less d a q) (haq : a < q) (hq : q < d.length)
    (hle : lessAt less d q (q - 1) = false) : SortedRange less d a (q + 1) := by
  have hq1 : q - 1 < d.length := by omega
  have e1 : d[q]? = some d[q] := List.getElem?_eq_getElem hq
  have e0 : d[q - 1]? = some d[q - 1] := List.getElem?_eq_getElem hq1
  rw [lessAt_eq less d q (q - 1) _ _ e1 e0] at hle
  intro i j x y hi hij hj hx hy
  by_cases hjq : j = q
  · rw [hjq, e1] at hy
    rw [← Option.some.inj hy]
    by_cases hiq : i = q - 1
    · rw [hiq, e0] at hx
      rw [← Option.some.inj hx]
      exact hle
    · have := hs i (q - 1) x d[q - 1] hi (by omega) (by omega) hx e0
      exact h.negTrans hle this
  · exact hs i j x y hi hij (by omega) hx hy

theorem SortedRange_extend {α : Type} {less : α → α → Bool} (h : StrictWeakOrder less)
    (d : List α) (a i n : Nat) (hs : SortedRange less d a i) (hai : a < i)
    (hr : i + n ≤ d.length)
    (hadj : ∀ k, i ≤ k → k < i + n → lessAt less d k (k - 1) = false) :
    SortedRange less d a (i + n) := by
  induction n with
  | zero => exact hs
  | succ n ih =>
    have := ih (by omega) (fun k h1 h2 => hadj k h1 (by omega))
    exact SortedRange_succ h d a (i + n) this (by omega) (by omega) (hadj (i + n) (by omega)
      (by omega))

theorem shiftLeft_eq_insertionInner {α : Type} (less : α → α → Bool) (a j : Nat) (d : List α)
    (haj : a ≤ j) (hj : j < d.length)
    (hlow : a = 0 ∨ ∃ y, d[a - 1]? = some y ∧
      ∀ m x, a ≤ m → m ≤ j → d[m]? = some x → less x y = false) :
    shiftLeft less j d = insertionInner less a j d := by
  induction j generalizing d with
  | zero =>
    simp [shiftLeft, insertionInner]
  | succ j ih =>
    unfold shiftLeft insertionInner
    have hj1 : j + 1 < d.length := hj
    have hj0 : j < d.length := by omega
    by_cases haj1 : a < j + 1
    · by_cases hc : lessAt less d (j + 1) j = true
      · simp only [hc, haj1, decide_True, Bool.and_self, Bool.not_true, if_true]
        rw [if_neg (by simp)]
        apply ih _ (by omega) (by rw [swapAt_length]; omega)
        rcases hlow with h0 | ⟨y, hy, hall⟩
        · left; exact h0
        · by_cases ha0 : a = 0
          · left; exact ha0
          right
          refine ⟨y, ?_, ?_⟩
          · rw [getElem?_swapAt d (j + 1) j (a - 1) hj1 hj0, if_neg (by omega),
              if_neg (by omega)]
            exact hy
          · intro m x h1 h2 hx
            rw [getElem?_swapAt d (j + 1) j _ hj1 hj0] at hx
            by_cases hm : m = j
            · rw [if_pos hm] at hx
              exact hall (j + 1) x (by omega) (le_refl _) hx
            · rw [if_neg hm, if_neg (by omega)] at hx
              exact hall m x h1 (by omega) hx
      · have hc' : lessAt less d (j + 1) j = false := by simpa using hc
        simp [hc']
    · have ha : a = j + 1 := by omega
      rcases hlow with h0 | ⟨y, hy, hall⟩
      · omega
      · have e1 : d[j + 1]? = some d[j + 1] := List.getElem?_eq_getElem hj1
        have hy' : d[j]? = some y := by
          rw [ha] at hy
          simpa using hy
        have hle : lessAt less d (j + 1) j = false := by
          rw [lessAt_eq less d (j + 1) j _ _ e1 hy']
          exact hall (j + 1) _ (by omega) (le_refl _) e1
        simp [hle, haj1]

theorem shiftRight_spec {α : Type} (less : α → α → Bool) (lo b : Nat) (fuel j : Nat)
    (d : List α) (hb : b ≤ d.length) (hlo : lo + 1 ≤ j) :
    RangeStep lo b d (shiftRight less b fuel j d) := by
  induction fuel generalizing j d with
  | zero => exact RangeStep.refl _ _ _
  | succ fuel ih =>
    unfold shiftRight
    by_cases hjb : j < b
    · rw [if_pos hjb]
      by_cases hc : (!lessAt less d j (j - 1)) = true
      · rw [if_pos hc]
        exact RangeStep.refl _ _ _
      · rw [if_neg hc]
        have hstep := RangeStep_swapAt lo b d j (j - 1) (by omega) hjb (by omega) (by omega) hb
        exact hstep.trans (ih (j + 1) _ (by rw [swapAt_length]; exact hb) (by omega))
    · rw [if_neg hjb]
      exact RangeStep.refl _ _ _

theorem LowerBounded.step {α : Type} {less : α → α → Bool} {d d' : List α} {a b : Nat}
    (hl : LowerBounded less d a b) (hs : RangeStep a b d d') : LowerBounded less d' a b := by
  rcases hl with h0 | ⟨y, hy, hall⟩
  · left; exact h0
  · by_cases ha0 : a = 0
    · left; exact ha0
    right
    refine ⟨y, ?_, ?_⟩
    · rw [hs.2.1 (a - 1) (by omega)]; exact hy
    · exact hs.2.2.1 (fun x => less x y = false) hall

theorem LowerBounded.shrink {α : Type} {less : α → α → Bool} {d : List α} {a b b' : Nat}
    (hl : LowerBounded less d a b) (hb : b' ≤ b) : LowerBounded less d a b' := by
  rcases hl with h0 | ⟨y, hy, hall⟩
  · left; exact h0
  · right
    exact ⟨y, hy, fun m x h1 h2 hx => hall m x h1 (by omega) hx⟩

theorem SortedRange_of_frame {α : Type} {less : α → α → Bool} {d d' : List α} {a i : Nat}
    (hs : SortedRange less d a i) (hf : ∀ k, k < i → d'[k]? = d[k]?) :
    SortedRange less d' a i := by
  intro p q x y hp hpq hq hx hy
  rw [hf p (by omega)] at hx
  rw [hf q hq] at hy
  exact hs p q x y hp hpq hq hx hy

theorem partialInsertionLoop_spec {α : Type} {less : α → α → Bool} (h : StrictWeakOrder less)
    (a b : Nat) (steps i : Nat) (d : List α) (hb : b ≤ d.length) (hai : a + 1 ≤ i)
    (hib : i ≤ b) (hs : SortedRange less d a i) (hlow : LowerBounded less d a b) :
    RangeStep a b d (partialInsertionLoop less a b steps i d).1 ∧
      ((partialInsertionLoop less a b steps i d).2 = true →
        SortedRange less (partialInsertionLoop less a b steps i d).1 a b) := by
  induction steps generalizing i d with
  | zero =>
    simp only [partialInsertionLoop]
    exact ⟨RangeStep.refl _ _ _, fun hf => absurd hf (by simp)⟩
  | succ steps ih =>
    unfold partialInsertionLoop
    simp only []
    obtain ⟨s1, s2, s3, s4⟩ := scanSorted_spec less d b b i (by omega) hib
    generalize scanSorted less d b b i = i' at s1 s2 s3 s4 ⊢
    have hsi' : SortedRange less d a i' := by
      have := SortedRange_extend h d a i (i' - i) hs (by omega) (by omega)
        (fun k h1 h2 => s3 k h1 (by omega))
      have e : i + (i' - i) = i' := by omega
      rw [e] at this
      exact this
    by_cases hc1 : i' = b
    · rw [if_pos hc1]
      rw [hc1] at hsi'
      exact ⟨RangeStep.refl _ _ _, fun _ => hsi'⟩
    · rw [if_neg hc1]
      by_cases hc2 : b - a < 50
      · rw [if_pos hc2]
        exact ⟨RangeStep.refl _ _ _, fun hf => absurd hf (by simp)⟩
      · rw [if_neg hc2]
        have hi'len : i' < d.length := by omega
        have hi1len : i' - 1 < d.length := by omega
        have hstep1 := RangeStep_swapAt a b d i' (i' - 1) (by omega) (by omega) (by omega)
          (by omega) hb
        have hlen1 : (swapAt d i' (i' - 1)).length = d.length := swapAt_length _ _ _
        have hs1 : SortedRange less (swapAt d i' (i' - 1)) a (i' - 1) := by
          apply SortedRange_of_frame (d := d)
          · intro p q x y hp hpq hq hx hy
            exact hsi' p q x y hp hpq (by omega) hx hy
          · intro k hk
            rw [getElem?_swapAt d i' (i' - 1) k hi'len hi1len, if_neg (by omega),
              if_neg (by omega)]
        have hlow1 := hlow.step hstep1
        generalize swapAt d i' (i' - 1) = d1 at hstep1 hlen1 hs1 hlow1 ⊢
        have h2 : SortedRange less (if 2 ≤ i' - a then shiftLeft less (i' - 1) d1 else d1) a i' ∧
            RangeStep a b d1 (if 2 ≤ i' - a then shiftLeft less (i' - 1) d1 else d1) := by
          by_cases hc3 : 2 ≤ i' - a
          · rw [if_pos hc3]
            have hl1 : LowerBounded less d1 a (i' - 1 + 1) := hlow1.shrink (by omega)
            rw [shiftLeft_eq_insertionInner less a (i' - 1) d1 (by omega) (by omega) (by
              rcases hl1 with h0 | ⟨y, hy, hall⟩
              · left; exact h0
              · right; exact ⟨y, hy, fun m x h1 h2 hx => hall m x h1 (by omega) hx⟩)]
            have := insertionInner_spec h a (i' - 1) (i' - 1) d1 (by omega) (le_refl _)
              (by omega) (by
                intro p q x y hp hpq hq hne hx hy
                exact hs1 p q x y hp hpq (by omega) hx hy)
            have e : i' - 1 + 1 = i' := by omega
            rw [e] at this
            exact ⟨this.1, this.2.mono (le_refl _) (by omega)⟩
          · rw [if_neg hc3]
            refine ⟨?_, RangeStep.refl _ _ _⟩
            intro p q x y hp hpq hq hx hy
            omega
        generalize (if 2 ≤ i' - a then shiftLeft less (i' - 1) d1 else d1) = d2 at h2 ⊢
        have hlen2 : d2.length = d1.length := h2.2.1
        have h3 : RangeStep i' b d2
            (if 2 ≤ b - i' then shiftRight less b b (i' + 1) d2 else d2) := by
          by_cases hc4 : 2 ≤ b - i'
          · rw [if_pos hc4]
            exact shiftRight_spec less i' b b (i' + 1) d2 (by omega) (le_refl _)
          · rw [if_neg hc4]
            exact RangeStep.refl _ _ _
        generalize (if 2 ≤ b - i' then shiftRight less b b (i' + 1) d2 else d2) = d3 at h3 ⊢
        have hlen3 : d3.length = d2.length := h3.1
        have hs3 : SortedRange less d3 a i' :=
          SortedRange_of_frame h2.1 (fun k hk => h3.2.1 k (Or.inl hk))
        have hstep13 : RangeStep a b d1 d3 := h2.2.trans (h3.mono (by omega) (le_refl _))
        have hstep : RangeStep a b d d3 := hstep1.trans hstep13
        obtain ⟨r1, r2⟩ := ih i' d3 (by omega) (by omega) (by omega) hs3 (hlow.step hstep)
        exact ⟨hstep.trans r1, r2⟩

theorem partialInsertionSort_func_spec {α : Type} {less : α → α → Bool}
    (h : StrictWeakOrder less) (d : List α) (a b : Nat) (hb : b ≤ d.length) (hab : a < b)
    (hlow : LowerBounded less d a b) :
    RangeStep a b d (partialInsertionSort_func less d a b).1 ∧
      ((partialInsertionSort_func less d a b).2 = true →
        SortedRange less (partialInsertionSort_func less d a b).1 a b) := by
  unfold partialInsertionSort_func
  exact partialInsertionLoop_spec h a b 5 (a + 1) d hb (le_refl _) (by omega)
    (by intro p q x y h1 h2 h3; omega) hlow

/-! ## `heapSort_func` -/

theorem lessAt_irrefl {α : Type} {less : α → α → Bool} (h : StrictWeakOrder less)
    (d : List α) (i : Nat) : lessAt less d i i = false := by
  unfold lessAt
  rw [List.get?_eq_getElem?]
  cases d[i]? with
  | none => rfl
  | some x => exact h.irrefl x

theorem lessAt_asymm {α : Type} {less : α → α → Bool} (h : StrictWeakOrder less)
    (d : List α) (i j : Nat) (hij : lessAt less d i j = true) : lessAt less d j i = false := by
  unfold lessAt at hij ⊢
  rw [List.get?_eq_getElem?, List.get?_eq_getElem?] at hij ⊢
  cases hi : d[i]? with
  | none => simp [hi] at hij
  | some x =>
    cases hj : d[j]? with
    | none => simp [hj] at hij
    | some y =>
      simp only [hi, hj] at hij ⊢
      exact h.asymm hij

theorem lessAt_negTrans {α : Type} {less : α → α → Bool} (h : StrictWeakOrder less)
    (d : List α) (i j k : Nat) (hj : j < d.length) (hij : lessAt less d i j = false)
    (hjk : lessAt less d j k = false) : lessAt less d i k = false := by
  unfold lessAt at hij hjk ⊢
  rw [List.get?_eq_getElem?, List.get?_eq_getElem?] at hij hjk ⊢
  have ej : d[j]? = some d[j] := List.getElem?_eq_getElem hj
  cases hi : d[i]? with
  | none => rfl
  | some x =>
    cases hk : d[k]? with
    | none => rfl
    | some z =>
      simp only [hi, hk, ej] at hij hjk ⊢
      exact h.negTrans hij hjk

theorem lessAt_swapAt {α : Type} (less : α → α → Bool) (d : List α) (i j p q : Nat)
    (hi : i < d.length) (hj : j < d.length) :
    lessAt less (swapAt d i j) p q = lessAt less d (swapIdx i j p) (swapIdx i j q) := by
  have e : ∀ k, (swapAt d i j)[k]? = d[swapIdx i j k]? := by
    intro k
    rw [getElem?_swapAt d i j k hi hj]
    unfold swapIdx
    split
    · rfl
    · split <;> rfl
  unfold lessAt
  simp only [List.get?_eq_getElem?, e]

theorem siftDown_func_spec {α : Type} {less : α → α → Bool} (h : StrictWeakOrder less)
    (hi first lo : Nat) (fuel root : Nat) (d : List α) (hlen : first + hi ≤ d.length)
    (hfuel : hi - root ≤ fuel) (hlo : lo ≤ root)
    (h1 : ∀ c, 1 ≤ c → c < hi → lo ≤ (c - 1) / 2 → (c - 1) / 2 ≠ root →
      lessAt less d (first + (c - 1) / 2) (first + c) = false)
    (h2 : 1 ≤ root → lo ≤ (root - 1) / 2 → ∀ c, c < hi → 1 ≤ c → (c - 1) / 2 = root →
      lessAt less d (first + (root - 1) / 2) (first + c) = false) :
    (∀ c, 1 ≤ c → c < hi → lo ≤ (c - 1) / 2 →
        lessAt less (siftDown_func less hi first fuel root d) (first + (c - 1) / 2) (first + c)
          = false) ∧
      RangeStep first (first + hi) d (siftDown_func less hi first fuel root d) := by
  induction fuel generalizing root d with
  | zero =>
    simp only [siftDown_func]
    refine ⟨?_, RangeStep.refl _ _ _⟩
    intro c hc1 hc2 hc3
    exact h1 c hc1 hc2 hc3 (by omega)
  | succ fuel ih =>
    unfold siftDown_func
    simp only []
    by_cases hc : hi ≤ 2 * root + 1
    · rw [if_pos hc]
      refine ⟨?_, RangeStep.refl _ _ _⟩
      intro c hc1 hc2 hc3
      exact h1 c hc1 hc2 hc3 (by omega)
    · rw [if_neg hc]
      have hbig : ∃ c', ((if (decide (2 * root + 1 + 1 < hi) &&
            lessAt less d (first + (2 * root + 1)) (first + (2 * root + 1) + 1)) = true
            then 2 * root + 1 + 1 else 2 * root + 1) = c') ∧
          (c' = 2 * root + 1 ∨ c' = 2 * root + 2) ∧ c' < hi ∧
          (∀ c, c < hi → 1 ≤ c → (c - 1) / 2 = root →
            lessAt less d (first + c') (first + c) = false) := by
        by_cases hr : (decide (2 * root + 1 + 1 < hi) &&
            lessAt less d (first + (2 * root + 1)) (first + (2 * root + 1) + 1)) = true
        · rw [if_pos hr]
          simp only [Bool.and_eq_true, decide_eq_true_eq] at hr
          refine ⟨_, rfl, Or.inr rfl, hr.1, ?_⟩
          intro c hc2 hc1 hcp
          have hcc : c = 2 * root + 1 ∨ c = 2 * root + 2 := by omega
          rcases hcc with e | e
          · rw [e]
            exact lessAt_asymm h d _ _ hr.2
          · rw [e]
            exact lessAt_irrefl h d _
        · rw [if_neg hr]
          simp only [Bool.and_eq_true, decide_eq_true_eq, not_and, Bool.not_eq_true] at hr
          refine ⟨_, rfl, Or.inl rfl, by omega, ?_⟩
          intro c hc2 hc1 hcp
          have hcc : c = 2 * root + 1 ∨ c = 2 * root + 2 := by omega
          rcases hcc with e | e
          · rw [e]
            exact lessAt_irrefl h d _
          · rw [e]
            exact hr (by omega)
      obtain ⟨c', hc'eq, hc'or, hc'lt, hc'max⟩ := hbig
      rw [hc'eq]
      by_cases hroot : (!lessAt less d (first + root) (first + c')) = true
      · rw [if_pos hroot]
        simp only [Bool.not_eq_true'] at hroot
        refine ⟨?_, RangeStep.refl _ _ _⟩
        intro c hc1 hc2 hc3
        by_cases hp : (c - 1) / 2 = root
        · rw [hp]
          exact lessAt_negTrans h d _ (first + c') _ (by omega) hroot (hc'max c hc2 hc1 hp)
        · exact h1 c hc1 hc2 hc3 hp
      · rw [if_neg hroot]
        simp only [Bool.not_eq_true', Bool.not_eq_false] at hroot
        have hrlen : first + root < d.length := by omega
        have hclen : first + c' < d.length := by omega
        have hsw := fun p q => lessAt_swapAt less d (first + root) (first + c') p q hrlen hclen
        have hstep := RangeStep_swapAt first (first + hi) d (first + root) (first + c')
          (by omega) (by omega) (by omega) (by omega) hlen
        obtain ⟨r1, r2⟩ := ih c' (swapAt d (first + root) (first + c'))
          (by rw [swapAt_length]; exact hlen) (by omega) (by omega)
          (by
            intro c hc1 hc2 hc3 hne
            rw [hsw]
            by_cases hp : (c - 1) / 2 = root
            · have hcc : c = 2 * root + 1 ∨ c = 2 * root + 2 := by omega
              have e1 : swapIdx (first + root) (first + c') (first + (c - 1) / 2)
                  = first + c' := by
                unfold swapIdx
                rw [if_neg (by omega), if_pos (by omega)]
              rw [e1]
              by_cases hcc' : c = c'
              · have e2 : swapIdx (first + root) (first + c') (first + c) = first + root := by
                  unfold swapIdx
                  rw [if_pos (by omega)]
                rw [e2]
                exact lessAt_asymm h d _ _ hroot
              · have e2 : swapIdx (first + root) (first + c') (first + c) = first + c := by
                  unfold swapIdx
                  rw [if_neg (by omega), if_neg (by omega)]
                rw [e2]
                exact hc'max c hc2 hc1 hp
            · have e1 : swapIdx (first + root) (first + c') (first + (c - 1) / 2)
                  = first + (c - 1) / 2 := by
                unfold swapIdx
                rw [if_neg (by omega), if_neg (by omega)]
              rw [e1]
              by_cases hcr : c = root
              · have e2 : swapIdx (first + root) (first + c') (first + c) = first + c' := by
                  unfold swapIdx
                  rw [if_neg (by omega), if_pos (by omega)]
                rw [e2, hcr]
                exact h2 (by omega) (by omega) c' hc'lt (by omega) (by omega)
              · have e2 : swapIdx (first + root) (first + c') (first + c) = first + c := by
                  unfold swapIdx
                  rw [if_neg (by omega), if_neg (by omega)]
                rw [e2]
                exact h1 c hc1 hc2 hc3 hp)
          (by
            intro hc1 hc3 c hc2 hc1' hcp
            rw [hsw]
            have e1 : swapIdx (first + root) (first + c') (first + (c' - 1) / 2)
                = first + c' := by
              unfold swapIdx
              rw [if_neg (by omega), if_pos (by omega)]
            have e2 : swapIdx (first + root) (first + c') (first + c) = first + c := by
              unfold swapIdx
              rw [if_neg (by omega), if_neg (by omega)]
            rw [e1, e2]
            have := h1 c hc1' hc2 (by omega) (by omega)
            rw [hcp] at this
            exact this)
        exact ⟨r1, hstep.trans r2⟩

theorem heapBuild_spec {α : Type} {less : α → α → Bool} (h : StrictWeakOrder less)
    (hi first : Nat) (i : Nat) (d : List α) (hlen : first + hi ≤ d.length)
    (pre : ∀ c, 1 ≤ c → c < hi → i + 1 ≤ (c - 1) / 2 →
      lessAt less d (first + (c - 1) / 2) (first + c) = false) :
    (∀ c, 1 ≤ c → c < hi →
        lessAt less (heapBuild less hi first i d) (first + (c - 1) / 2) (first + c) = false) ∧
      RangeStep first (first + hi) d (heapBuild less hi first i d) := by
  induction i generalizing d with
  | zero =>
    unfold heapBuild
    obtain ⟨r1, r2⟩ := siftDown_func_spec h hi first 0 hi 0 d hlen (by omega) (le_refl _)
      (fun c hc1 hc2 _ hne => pre c hc1 hc2 (by omega))
      (fun hr => by omega)
    exact ⟨fun c hc1 hc2 => r1 c hc1 hc2 (by omega), r2⟩
  | succ i ih =>
    unfold heapBuild
    obtain ⟨r1, r2⟩ := siftDown_func_spec h hi first (i + 1) hi (i + 1) d hlen (by omega)
      (le_refl _) (fun c hc1 hc2 hlo hne => pre c hc1 hc2 (by omega))
      (fun hr hlo => by omega)
    obtain ⟨q1, q2⟩ := ih (siftDown_func less hi first hi (i + 1) d) (by rw [r2.1]; exact hlen)
      (fun c hc1 hc2 hlo => r1 c hc1 hc2 hlo)
    exact ⟨q1, r2.trans q2⟩

theorem heap_root_max {α : Type} {less : α → α → Bool} (h : StrictWeakOrder less)
    (d : List α) (first n : Nat) (hlen : first + n ≤ d.length)
    (heap : ∀ c, 1 ≤ c → c < n → lessAt less d (first + (c - 1) / 2) (first + c) = false)
    (c : Nat) (hc : c < n) : lessAt less d first (first + c) = false := by
  induction c using Nat.strong_induction_on with
  | _ c ih =>
    by_cases h0 : c = 0
    · rw [h0]
      exact lessAt_irrefl h d first
    · have hp := ih ((c - 1) / 2) (by omega) (by omega)
      exact lessAt_negTrans h d _ (first + (c - 1) / 2) _ (by omega) hp
        (heap c (by omega) hc)

theorem heapPop_spec {α : Type} {less : α → α → Bool} (h : StrictWeakOrder less)
    (first total : Nat) (n : Nat) (d : List α) (hlen : first + total ≤ d.length)
    (hn : n ≤ total)
    (heap : ∀ c, 1 ≤ c → c < n → lessAt less d (first + (c - 1) / 2) (first + c) = false)
    (hsorted : SortedRange less d (first + n) (first + total))
    (hcross : ∀ m q x y, first ≤ m → m < first + n → first + n ≤ q → q < first + total →
      d[m]? = some x → d[q]? = some y → less y x = false) :
    SortedRange less (heapPop less first n d) first (first + total) ∧
      RangeStep first (first + total) d (heapPop less first n d) := by
  induction n generalizing d with
  | zero =>
    unfold heapPop
    exact ⟨hsorted, RangeStep.refl _ _ _⟩
  | succ i ih =>
    unfold heapPop
    have hflen : first < d.length := by omega
    have hilen : first + i < d.length := by omega
    have e0 : d[first]? = some d[first] := List.getElem?_eq_getElem hflen
    have ei : d[first + i]? = some d[first + i] := List.getElem?_eq_getElem hilen
    have hget := fun k => getElem?_swapAt d first (first + i) k hflen hilen
    have hstep1 := RangeStep_swapAt first (first + total) d first (first + i) (le_refl _)
      (by omega) (by omega) (by omega) hlen
    have hmax : ∀ c x, c < i + 1 → d[first + c]? = some x → less d[first] x = false := by
      intro c x hc hx
      rw [← lessAt_eq less d first (first + c) _ _ e0 hx]
      exact heap_root_max h d first (i + 1) (by omega) heap c hc
    -- the list after the swap
    have hs1 : SortedRange less (swapAt d first (first + i)) (first + i) (first + total) := by
      intro p q x y hp hpq hq hx hy
      rw [hget q, if_neg (by omega), if_neg (by omega)] at hy
      by_cases hpi : p = first + i
      · rw [hget p, if_pos hpi] at hx
        exact hcross first q x y (le_refl _) (by omega) (by omega) hq hx hy
      · rw [hget p, if_neg hpi, if_neg (by omega)] at hx
        exact hsorted p q x y (by omega) hpq hq hx hy
    have hc1 : ∀ m q x y, first ≤ m → m < first + i → first + i ≤ q → q < first + total →
        (swapAt d first (first + i))[m]? = some x →
        (swapAt d first (first + i))[q]? = some y → less y x = false := by
      intro m q x y hm1 hm2 hq1 hq2 hx hy
      have hxin : ∃ c, c < i + 1 ∧ d[first + c]? = some x := by
        rw [hget m, if_neg (by omega)] at hx
        by_cases hm : m = first
        · rw [if_pos hm] at hx
          exact ⟨i, by omega, hx⟩
        · rw [if_neg hm] at hx
          refine ⟨m - first, by omega, ?_⟩
          have e : first + (m - first) = m := by omega
          rw [e]; exact hx
      obtain ⟨c, hc, hxc⟩ := hxin
      by_cases hqi : q = first + i
      · rw [hget q, if_pos hqi, e0] at hy
        rw [← Option.some.inj hy]
        exact hmax c x hc hxc
      · rw [hget q, if_neg hqi, if_neg (by omega)] at hy
        exact hcross (first + c) q x y (by omega) (by omega) (by omega) hq2 hxc hy
    have hheap1 : ∀ c, 1 ≤ c → c < i → 0 ≤ (c - 1) / 2 → (c - 1) / 2 ≠ 0 →
        lessAt less (swapAt d first (first + i)) (first + (c - 1) / 2) (first + c) = false := by
      intro c hc1 hc2 _ hne
      rw [lessAt_swapAt less d first (first + i) _ _ hflen hilen]
      have e1 : swapIdx first (first + i) (first + (c - 1) / 2) = first + (c - 1) / 2 := by
        unfold swapIdx
        rw [if_neg (by omega), if_neg (by omega)]
      have e2 : swapIdx first (first + i) (first + c) = first + c := by
        unfold swapIdx
        rw [if_neg (by omega), if_neg (by omega)]
      rw [e1, e2]
      exact heap c hc1 (by omega)
    have hlen1 : (swapAt d first (first + i)).length = d.length := swapAt_length _ _ _
    generalize swapAt d first (first + i) = d1 at hstep1 hs1 hc1 hheap1 hlen1 ⊢
    obtain ⟨r1, r2⟩ := siftDown_func_spec h i first 0 i 0 d1 (by omega) (by omega) (le_refl _)
      hheap1 (fun hr => by omega)
    generalize siftDown_func less i first i 0 d1 = d2 at r1 r2 ⊢
    have hs2 : SortedRange less d2 (first + i) (first + total) := by
      intro p q x y hp hpq hq hx hy
      rw [r2.2.1 p (by omega)] at hx
      rw [r2.2.1 q (by omega)] at hy
      exact hs1 p q x y hp hpq hq hx hy
    have hc2 : ∀ m q x y, first ≤ m → m < first + i → first + i ≤ q → q < first + total →
        d2[m]? = some x → d2[q]? = some y → less y x = false := by
      intro m q x y hm1 hm2 hq1 hq2 hx hy
      rw [r2.2.1 q (by omega)] at hy
      exact r2.2.2.1 (fun x => ∀ q y, first + i ≤ q → q < first + total → d1[q]? = some y →
        less y x = false) (fun k x hk1 hk2 hkx q y hq1 hq2 hy =>
          hc1 k q x y hk1 hk2 hq1 hq2 hkx hy) m x hm1 hm2 hx q y hq1 hq2 hy
    obtain ⟨q1, q2⟩ := ih d2 (by rw [r2.1]; omega) (by omega)
      (fun c hc1 hc2 => r1 c hc1 hc2 (by omega)) hs2 hc2
    exact ⟨q1, hstep1.trans ((r2.mono (le_refl _) (by omega)).trans q2)⟩

theorem heapSort_func_spec {α : Type} {less : α → α → Bool} (h : StrictWeakOrder less)
    (d : List α) (a b : Nat) (hb : b ≤ d.length) (hab : a ≤ b) :
    SortedRange less (heapSort_func less d a b) a b ∧
      RangeStep a b d (heapSort_func less d a b) := by
  unfold heapSort_func
  have e : a + (b - a) = b := by omega
  obtain ⟨r1, r2⟩ := heapBuild_spec h (b - a) a ((b - a - 1) / 2) d (by omega)
    (fun c hc1 hc2 hlo => by omega)
  generalize heapBuild less (b - a) a ((b - a - 1) / 2) d = d1 at r1 r2 ⊢
  obtain ⟨q1, q2⟩ := heapPop_spec h a (b - a) (b - a) d1 (by rw [r2.1]; omega) (le_refl _)
    r1 (by intro p q x y h1 h2 h3; omega) (by intro m q x y h1 h2 h3 h4; omega)
  rw [e] at r2 q1 q2
  exact ⟨q1, r2.trans q2⟩

/-! ## `pdqsort_func` -/

theorem pdqPrepare_spec {α : Type} {less : α → α → Bool} (h : StrictWeakOrder less)
    (d : List α) (a b : Nat) (wb wp : Bool) (hb : b ≤ d.length) (hab : a < b)
    (hlow : LowerBounded less d a b) :
    RangeStep a b d (pdqPrepare less d a b wb wp).1 ∧
      (a ≤ (pdqPrepare less d a b wb wp).2.1 ∧ (pdqPrepare less d a b wb wp).2.1 < b) ∧
      ((pdqPrepare less d a b wb wp).2.2 = true →
        SortedRange less (pdqPrepare less d a b wb wp).1 a b) := by
  unfold pdqPrepare
  simp only []
  have s1 : RangeStep a b d (if (!wb) = true then breakPatterns_func d a b else d) := by
    split
    · exact breakPatterns_func_spec d a b hb (by omega)
    · exact RangeStep.refl _ _ _
  generalize (if (!wb) = true then breakPatterns_func d a b else d) = d1 at s1 ⊢
  have hb1 : b ≤ d1.length := by rw [s1.1]; exact hb
  have cb := choosePivot_func_bounds less d1 a b hab
  generalize choosePivot_func less d1 a b = chosen at cb ⊢
  have s2 : RangeStep a b d1
      (if decide (chosen.2 = SortedHint.decreasingHint) = true then reverseRange_func d1 a b
        else d1) := by
    split
    · exact reverseRange_func_spec d1 a b hb1 hab
    · exact RangeStep.refl _ _ _
  generalize (if decide (chosen.2 = SortedHint.decreasingHint) = true
    then reverseRange_func d1 a b else d1) = d2 at s2 ⊢
  have hb2 : b ≤ d2.length := by rw [s2.1]; exact hb1
  have hp : a ≤ (if decide (chosen.2 = SortedHint.decreasingHint) = true
      then b - 1 - (chosen.1 - a) else chosen.1) ∧
      (if decide (chosen.2 = SortedHint.decreasingHint) = true
      then b - 1 - (chosen.1 - a) else chosen.1) < b := by
    split <;> omega
  generalize (if decide (chosen.2 = SortedHint.decreasingHint) = true
      then b - 1 - (chosen.1 - a) else chosen.1) = pivot at hp ⊢
  have hlow2 : LowerBounded less d2 a b := hlow.step (s1.trans s2)
  generalize (wb && wp && decide ((if decide (chosen.2 = SortedHint.decreasingHint) = true
    then SortedHint.increasingHint else chosen.2) = SortedHint.increasingHint)) = cond
  cases cond with
  | true =>
    simp only [if_true]
    obtain ⟨r1, r2⟩ := partialInsertionSort_func_spec h d2 a b hb2 hab hlow2
    exact ⟨(s1.trans s2).trans r1, hp, r2⟩
  | false =>
    simp only [Bool.false_eq_true, if_false]
    exact ⟨s1.trans s2, hp, fun hf => absurd hf (by simp)⟩

theorem SortedRange_join {α : Type} {less : α → α → Bool} (h : StrictWeakOrder less)
    (d : List α) (a b mid : Nat) (p : α) (hp : d[mid]? = some p)
    (hlo : ∀ k x, a ≤ k → k < mid → d[k]? = some x → less x p = true)
    (hhi : ∀ k x, mid < k → k < b → d[k]? = some x → less x p = false)
    (hs1 : SortedRange less d a mid) (hs2 : SortedRange less d (mid + 1) b) :
    SortedRange less d a b := by
  intro i j x y hi hij hj hx hy
  by_cases hjm : j < mid
  · exact hs1 i j x y hi hij hjm hx hy
  · by_cases him : mid < i
    · exact hs2 i j x y (by omega) hij hj hx hy
    · by_cases hie : i = mid
      · rw [hie, hp] at hx
        rw [← Option.some.inj hx]
        exact hhi j y (by omega) hj hy
      · have hxp := hlo i x hi (by omega) hx
        by_cases hje : j = mid
        · rw [hje, hp] at hy
          rw [← Option.some.inj hy]
          exact h.asymm hxp
        · have hyp := hhi j y (by omega) hj hy
          cases hyx : less y x with
          | false => rfl
          | true =>
            have := h.trans y x p hyx hxp
            rw [hyp] at this
            exact absurd this (by simp)

theorem SortedRange_join_equal {α : Type} {less : α → α → Bool} (h : StrictWeakOrder less)
    (d : List α) (a b mid : Nat) (p : α)
    (hlo : ∀ k x, a ≤ k → k < mid → d[k]? = some x → less p x = false)
    (hhi : ∀ k x, a ≤ k → k < b → d[k]? = some x → less x p = false)
    (hs2 : SortedRange less d mid b) : SortedRange less d a b := by
  intro i j x y hi hij hj hx hy
  by_cases him : mid ≤ i
  · exact hs2 i j x y him hij hj hx hy
  · exact h.negTrans (hhi j y (by omega) hj hy) (hlo i x hi (by omega) hx)

theorem LowerBounded_of_frame {α : Type} {less : α → α → Bool} {d d' : List α} {a b : Nat}
    (hl : LowerBounded less d a b) (hab : a ≤ b) (hf : ∀ k, k < b → d'[k]? = d[k]?) :
    LowerBounded less d' a b := by
  rcases hl with h0 | ⟨y, hy, hall⟩
  · left; exact h0
  · by_cases ha0 : a = 0
    · left; exact ha0
    right
    refine ⟨y, ?_, ?_⟩
    · rw [hf (a - 1) (by omega)]; exact hy
    · intro m x h1 h2 hx
      rw [hf m h2] at hx
      exact hall m x h1 h2 hx

theorem pdqsort_func_spec {α : Type} {less : α → α → Bool} (h : StrictWeakOrder less)
    (fuel : Nat) (d : List α) (a b limit : Nat) (wb wp : Bool) (hab : a ≤ b)
    (hb : b ≤ d.length) (hfuel : b - a < fuel) (hlow : LowerBounded less d a b) :
    SortedRange less (pdqsort_func less fuel d a b limit wb wp) a b ∧
      RangeStep a b d (pdqsort_func less fuel d a b limit wb wp) := by
  induction fuel generalizing d a b limit wb wp with
  | zero => omega
  | succ fuel ih =>
    unfold pdqsort_func
    simp only []
    by_cases h12 : b - a ≤ 12
    · rw [if_pos h12]
      exact insertionSort_func_spec h d a b hb
    rw [if_neg h12]
    by_cases hl0 : limit = 0
    · rw [if_pos hl0]
      exact heapSort_func_spec h d a b hb hab
    rw [if_neg hl0]
    generalize (if (!wb) = true then limit - 1 else limit) = limit'
    obtain ⟨p1, p2, p3⟩ := pdqPrepare_spec h d a b wb wp hb (by omega) hlow
    generalize pdqPrepare less d a b wb wp = prep at p1 p2 p3 ⊢
    obtain ⟨d3, pivot, done⟩ := prep
    simp only [] at p1 p2 p3 ⊢
    have hb3 : b ≤ d3.length := by rw [p1.1]; exact hb
    have hlow3 : LowerBounded less d3 a b := hlow.step p1
    cases done with
    | true =>
      simp only [if_true]
      exact ⟨p3 rfl, p1⟩
    | false =>
      simp only [Bool.false_eq_true, if_false]
      have hplen : pivot < d3.length := by omega
      have ep : d3[pivot]? = some d3[pivot] := List.getElem?_eq_getElem hplen
      by_cases hce : (decide (0 < a) && !lessAt less d3 (a - 1) pivot) = true
      · rw [if_pos hce]
        simp only [Bool.and_eq_true, decide_eq_true_eq, Bool.not_eq_true'] at hce
        obtain ⟨ha0, hle⟩ := hce
        obtain ⟨e1, e2, e3, e4, e5⟩ :=
          partitionEqual_func_spec h d3 a b pivot d3[pivot] hb3 p2.1 p2.2 ep
        generalize partitionEqual_func less d3 a b pivot = eq at e1 e2 e3 e4 e5 ⊢
        obtain ⟨d4, mid⟩ := eq
        simp only [] at e1 e2 e3 e4 e5 ⊢
        have hb4 : b ≤ d4.length := by rw [e3.1]; exact hb3
        -- every element of the part is at least the pivot
        rcases hlow3 with hz | ⟨y, hy, hall⟩
        · omega
        have hyp : less y d3[pivot] = false := by
          rw [← lessAt_eq less d3 (a - 1) pivot y _ hy ep]; exact hle
        have hge : ∀ k x, a ≤ k → k < b → d4[k]? = some x → less x d3[pivot] = false := by
          intro k x h1 h2 hx
          have := e3.2.2.1 (fun x => less x y = false) hall k x h1 h2 hx
          exact h.negTrans this hyp
        have hmlen : mid - 1 < d4.length := by omega
        have em : d4[mid - 1]? = some d4[mid - 1] := List.getElem?_eq_getElem hmlen
        have hlow4 : LowerBounded less d4 mid b := by
          right
          refine ⟨d4[mid - 1], em, ?_⟩
          intro m x h1 h2 hx
          have hz := e4 (mid - 1) _ (by omega) (by omega) em
          have hx' := e5 m x h1 h2 hx
          exact h.asymm (h.less_of_le_of_less hz hx')
        obtain ⟨r1, r2⟩ := ih d4 mid b limit' wb wp e2 hb4 (by omega) hlow4
        generalize pdqsort_func less fuel d4 mid b limit' wb wp = d5 at r1 r2 ⊢
        refine ⟨?_, p1.trans (e3.trans (r2.mono (by omega) (le_refl _)))⟩
        apply SortedRange_join_equal h d5 a b mid d3[pivot] _ _ r1
        · intro k x h1 h2 hx
          rw [r2.2.1 k (Or.inl h2)] at hx
          exact e4 k x h1 h2 hx
        · exact (r2.mono (by omega) (le_refl _)).2.2.1 (fun x => less x d3[pivot] = false) hge
      · rw [if_neg hce]
        obtain ⟨q1, q2, q3, q4, q5, q6⟩ :=
          partition_func_spec less d3 a b pivot d3[pivot] hb3 p2.1 p2.2 ep
        generalize partition_func less d3 a b pivot = parted at q1 q2 q3 q4 q5 q6 ⊢
        obtain ⟨d4, mid, ap⟩ := parted
        simp only [] at q1 q2 q3 q4 q5 q6 ⊢
        have hb4 : b ≤ d4.length := by rw [q4.1]; exact hb3
        have hlow4 : LowerBounded less d4 a b := hlow3.step q4
        have hlowR : LowerBounded less d4 (mid + 1) b := by
          right
          exact ⟨d3[pivot], by simpa using q3, fun m x h1 h2 hx => q6 m x (by omega) h2 hx⟩
        by_cases hside : mid - a < b - mid
        · rw [if_pos hside]
          obtain ⟨r1, r2⟩ := ih d4 a mid limit' true true q1 (by omega) (by omega)
            (hlow4.shrink (by omega))
          generalize pdqsort_func less fuel d4 a mid limit' true true = d5 at r1 r2 ⊢
          have hb5 : b ≤ d5.length := by rw [r2.1]; exact hb4
          have hlowR5 : LowerBounded less d5 (mid + 1) b := by
            right
            refine ⟨d3[pivot], ?_, ?_⟩
            · rw [show mid + 1 - 1 = mid from rfl, r2.2.1 mid (Or.inr (le_refl _))]; exact q3
            · intro m x h1 h2 hx
              rw [r2.2.1 m (Or.inr (by omega))] at hx
              exact q6 m x (by omega) h2 hx
          obtain ⟨t1, t2⟩ := ih d5 (mid + 1) b limit' (decide ((b - a) / 8 ≤ mid - a)) ap
            (by omega) hb5 (by omega) hlowR5
          generalize pdqsort_func less fuel d5 (mid + 1) b limit'
            (decide ((b - a) / 8 ≤ mid - a)) ap = d6 at t1 t2 ⊢
          refine ⟨?_, p1.trans (q4.trans ((r2.mono (le_refl _) (by omega)).trans
            (t2.mono (by omega) (le_refl _))))⟩
          apply SortedRange_join h d6 a b mid d3[pivot]
          · rw [t2.2.1 mid (Or.inl (by omega)), r2.2.1 mid (Or.inr (le_refl _))]; exact q3
          · intro k x h1 h2 hx
            rw [t2.2.1 k (Or.inl (by omega))] at hx
            exact r2.2.2.1 (fun x => less x d3[pivot] = true) q5 k x h1 h2 hx
          · intro k x h1 h2 hx
            refine t2.2.2.1 (fun x => less x d3[pivot] = false) ?_ k x (by omega) h2 hx
            intro k x h1 h2 hx
            rw [r2.2.1 k (Or.inr (by omega))] at hx
            exact q6 k x (by omega) h2 hx
          · exact SortedRange_of_frame r1 (fun k hk => t2.2.1 k (Or.inl (by omega)))
          · exact t1
        · rw [if_neg hside]
          obtain ⟨r1, r2⟩ := ih d4 (mid + 1) b limit' true true (by omega) hb4 (by omega) hlowR
          generalize pdqsort_func less fuel d4 (mid + 1) b limit' true true = d5 at r1 r2 ⊢
          have hb5 : b ≤ d5.length := by rw [r2.1]; exact hb4
          have hlowL5 : LowerBounded less d5 a mid :=
            LowerBounded_of_frame (hlow4.shrink (by omega)) q1
              (fun k hk => r2.2.1 k (Or.inl (by omega)))
          obtain ⟨t1, t2⟩ := ih d5 a mid limit' (decide ((b - a) / 8 ≤ b - mid)) ap
            q1 (by omega) (by omega) hlowL5
          generalize pdqsort_func less fuel d5 a mid limit'
            (decide ((b - a) / 8 ≤ b - mid)) ap = d6 at t1 t2 ⊢
          refine ⟨?_, p1.trans (q4.trans ((r2.mono (by omega) (le_refl _)).trans
            (t2.mono (le_refl _) (by omega))))⟩
          apply SortedRange_join h d6 a b mid d3[pivot]
          · rw [t2.2.1 mid (Or.inr (le_refl _)), r2.2.1 mid (Or.inl (by omega))]; exact q3
          · intro k x h1 h2 hx
            refine t2.2.2.1 (fun x => less x d3[pivot] = true) ?_ k x h1 h2 hx
            intro k x h1 h2 hx
            rw [r2.2.1 k (Or.inl (by omega))] at hx
            exact q5 k x h1 h2 hx
          · intro k x h1 h2 hx
            rw [t2.2.1 k (Or.inr (by omega))] at hx
            exact r2.2.2.1 (fun x => less x d3[pivot] = false)
              (fun k x h1 h2 hx => q6 k x (by omega) h2 hx) k x (by omega) h2 hx
          · exact t1
          · intro i j x y hi hij hj hx hy
            rw [t2.2.1 i (Or.inr (by omega))] at hx
            rw [t2.2.1 j (Or.inr (by omega))] at hy
            exact r1 i j x y hi hij hj hx hy

/-- The model of `sort.Slice` meets the contract of package sort. -/
theorem sort_Slice_spec {α : Type} : SortSliceSpec (@sort_Slice α) := by
  intro less xs h
  unfold sort_Slice
  obtain ⟨r1, r2⟩ := pdqsort_func_spec h (xs.length + 1) xs 0 xs.length
    (bitsLen 64 xs.length) true true (Nat.zero_le _) (le_refl _) (by omega) (Or.inl rfl)
  generalize pdqsort_func less (xs.length + 1) xs 0 xs.length (bitsLen 64 xs.length)
    true true = out at r1 r2 ⊢
  refine ⟨r2.2.2.2, ?_⟩
  rw [List.pairwise_iff_getElem]
  intro i j hi hj hij
  exact r1 i j _ _ (Nat.zero_le _) hij (by rw [← r2.1]; exact hj)
    (List.getElem?_eq_getElem hi) (List.getElem?_eq_getElem hj)

/-! ## `fetchWithHTTPClient` -/

theorem fetch_events_perm (sortSlice : (Event → Event → Bool) → List Event → List Event)
    (hsort : SortSliceSpec sortSlice) (sources : List Source) :
    (fetchWithHTTPClient sortSlice (.ok ()) sources).events.Perm
      (concatItems (sourcesBeforeFailure sources)) := by
  have h := (hsort eventLess (fetchLoop sources ⟨[], [], []⟩).items eventLess_strictWeak).1
  have hi := fetchLoop_items sources ⟨[], [], []⟩
  rw [List.nil_append] at hi
  rw [hi] at h
  show (sortSlice eventLess (fetchLoop sources ⟨[], [], []⟩).items).Perm _
  rw [hi]
  exact h

theorem fetch_events_pairwise (sortSlice : (Event → Event → Bool) → List Event → List Event)
    (hsort : SortSliceSpec sortSlice) (newService : Except String Unit) (sources : List Source) :
    (fetchWithHTTPClient sortSlice newService sources).events.Pairwise
      (fun a b => eventLess b a = false) := by
  cases newService with
  | error e => simp [fetchWithHTTPClient]
  | ok u =>
    exact (hsort eventLess (fetchLoop sources ⟨[], [], []⟩).items eventLess_strictWeak).2

/-- C1: the list returned by `fetchWithHTTPClient` is in ascending order of
effective instant: for every adjacent pair `(i, i+1)` of the output the
effective instant of element `i` is not after that of element `i+1`, whatever
`sort.Slice` implementation (meeting the contract of package sort) is used and
whatever the sources answer. -/
theorem fetchWithHTTPClient_sorted
    (sortSlice : (Event → Event → Bool) → List Event → List Event)
    (hsort : SortSliceSpec sortSlice) (newService : Except String Unit) (sources : List Source)
    (i : Nat) (h : i + 1 < (fetchWithHTTPClient sortSlice newService sources).events.length) :
    (effectiveInstant ((fetchWithHTTPClient sortSlice newService sources).events[i])).instantLE
      (effectiveInstant ((fetchWithHTTPClient sortSlice newService sources).events[i + 1])) := by
  have hp := fetch_events_pairwise sortSlice hsort newService sources
  rw [List.pairwise_iff_getElem] at hp
  have := hp i (i + 1) (by omega) h (by omega)
  rwa [eventLess, before_false_iff] at this

theorem fetchWithHTTPClient_sorted_witness :
    SortSliceSpec (@sort_Slice Event) ∧
    ∃ h : 1 + 1 < (fetchWithHTTPClient sort_Slice (.ok ()) sampleSources).events.length,
      (effectiveInstant
          ((fetchWithHTTPClient sort_Slice (.ok ()) sampleSources).events[1])).instantLE
        (effectiveInstant
          ((fetchWithHTTPClient sort_Slice (.ok ()) sampleSources).events[1 + 1])) :=
  ⟨sort_Slice_spec, by decide,
    fetchWithHTTPClient_sorted sort_Slice sort_Slice_spec (.ok ()) sampleSources
      1 (by decide)⟩

/-- C2: when every source request succeeds, the merged output of
`fetchWithHTTPClient` has length equal to the sum of the per-source list
lengths and is a permutation of their concatenation; in particular every event
occurs in the output as many times as in all sources together (no drop, no
deduplication). -/
theorem fetchWithHTTPClient_keeps_all
    (sortSlice : (Event → Event → Bool) → List Event → List Event)
    (hsort : SortSliceSpec sortSlice) (sources : List Source)
    (hok : ∀ src ∈ sources, src.succeeds = true) :
    (fetchWithHTTPClient sortSlice (.ok ()) sources).events.length
        = (sources.map (fun src => src.items.length)).sum ∧
      (fetchWithHTTPClient sortSlice (.ok ()) sources).events.Perm (concatItems sources) ∧
      ∀ event, (fetchWithHTTPClient sortSlice (.ok ()) sources).events.count event
        = (sources.map (fun src => src.items.count event)).sum := by
  have hp := fetch_events_perm sortSlice hsort sources
  rw [sourcesBeforeFailure_all sources hok] at hp
  refine ⟨?_, hp, ?_⟩
  · rw [hp.length_eq, concatItems, List.length_flatten, List.map_map]
    rfl
  · intro event
    rw [hp.count_eq, concatItems, List.count_flatten, List.map_map]
    rfl

theorem fetchWithHTTPClient_keeps_all_witness :
    SortSliceSpec (@sort_Slice Event) ∧
    (∀ src ∈ sampleSourcesOk, src.succeeds = true) ∧
    ((fetchWithHTTPClient sort_Slice (.ok ()) sampleSourcesOk).events.length
        = (sampleSourcesOk.map (fun src => src.items.length)).sum ∧
      (fetchWithHTTPClient sort_Slice (.ok ()) sampleSourcesOk).events.Perm
        (concatItems sampleSourcesOk) ∧
      ∀ event, (fetchWithHTTPClient sort_Slice (.ok ()) sampleSourcesOk).events.count event
        = (sampleSourcesOk.map (fun src => src.items.count event)).sum) :=
  ⟨sort_Slice_spec, by decide,
    fetchWithHTTPClient_keeps_all sort_Slice sort_Slice_spec sampleSourcesOk
      (by decide)⟩

/-- C3: whatever each source answers, `fetchWithHTTPClient` (once the service
is created) returns without error; its output is a permutation of the
concatenation of the event lists of exactly the sources that precede the first
failing source in configuration order; and list requests are issued, one each
and in order, for those sources and for the failing one, after which no
request is issued any more, neither for the failing source nor for any source
after it. -/
theorem fetchWithHTTPClient_stops_at_failure
    (sortSlice : (Event → Event → Bool) → List Event → List Event)
    (hsort : SortSliceSpec sortSlice) (sources : List Source) :
    (fetchWithHTTPClient sortSlice (.ok ()) sources).err = none ∧
      (fetchWithHTTPClient sortSlice (.ok ()) sources).events.Perm
        (concatItems (sourcesBeforeFailure sources)) ∧
      (fetchWithHTTPClient sortSlice (.ok ()) sources).requests
        = (sources.take ((sourcesBeforeFailure sources).length + 1)).map Source.calendarID := by
  refine ⟨rfl, fetch_events_perm sortSlice hsort sources, ?_⟩
  have hr := fetchLoop_requests sources ⟨[], [], []⟩
  rw [List.nil_append] at hr
  exact hr

theorem fetchWithHTTPClient_stops_at_failure_witness :
    SortSliceSpec (@sort_Slice Event) ∧
    ((fetchWithHTTPClient sort_Slice (.ok ()) sampleSources).err = none ∧
      (fetchWithHTTPClient sort_Slice (.ok ()) sampleSources).events.Perm
        (concatItems (sourcesBeforeFailure sampleSources)) ∧
      (fetchWithHTTPClient sort_Slice (.ok ()) sampleSources).requests
        = (sampleSources.take ((sourcesBeforeFailure sampleSources).length + 1)).map
            Source.calendarID) :=
  ⟨sort_Slice_spec,
    fetchWithHTTPClient_stops_at_failure sort_Slice sort_Slice_spec sampleSources⟩

/-- C4 (amended): the sort orders by effective instant and by nothing else:
of two events of the output with different effective instants the earlier one
comes first.  For events with the same effective instant the contract of
`sort.Slice` fixes no order. -/
theorem fetchWithHTTPClient_orders_distinct_instants
    (sortSlice : (Event → Event → Bool) → List Event → List Event)
    (hsort : SortSliceSpec sortSlice) (newService : Except String Unit) (sources : List Source)
    (i j : Nat) (hi : i < (fetchWithHTTPClient sortSlice newService sources).events.length)
    (hj : j < (fetchWithHTTPClient sortSlice newService sources).events.length)
    (hlt : (effectiveInstant ((fetchWithHTTPClient sortSlice newService sources).events[i])).instantLT
      (effectiveInstant ((fetchWithHTTPClient sortSlice newService sources).events[j]))) :
    i < j := by
  have hp := fetch_events_pairwise sortSlice hsort newService sources
  rw [List.pairwise_iff_getElem] at hp
  rcases Nat.lt_trichotomy i j with h | h | h
  · exact h
  · subst h
    simp only [Time.instantLT] at hlt
    omega
  · have := hp j i hj hi h
    rw [eventLess, before_false_iff] at this
    simp only [Time.instantLT] at hlt
    simp only [Time.instantLE] at this
    omega

theorem fetchWithHTTPClient_orders_distinct_instants_witness :
    SortSliceSpec (@sort_Slice Event) ∧
    ∃ (hi : 0 < (fetchWithHTTPClient sort_Slice (.ok ()) sampleSources).events.length)
      (hj : 3 < (fetchWithHTTPClient sort_Slice (.ok ()) sampleSources).events.length),
      (effectiveInstant
          ((fetchWithHTTPClient sort_Slice (.ok ()) sampleSources).events[0])).instantLT
        (effectiveInstant
          ((fetchWithHTTPClient sort_Slice (.ok ()) sampleSources).events[3])) ∧
      0 < 3 :=
  ⟨sort_Slice_spec, by decide, by decide, by decide,
    fetchWithHTTPClient_orders_distinct_instants sort_Slice sort_Slice_spec
      (.ok ()) sampleSources 0 3 (by decide) (by decide) (by decide)⟩

theorem unstable_output :
    (fetchWithHTTPClient sort_Slice (.ok ()) unstableSources).events.map Event.Summary
      = ["e06", "e01", "e02", "e03", "e04", "e05", "e07", "e08", "e09", "e10", "e11", "e12",
         "m00"] := by
  decide

/-- C4 (as stated, refuted): with the algorithm of `sort.Slice`, thirteen
events of which the first starts at 10:00 and the other twelve all at 09:00
come out with `e06` ahead of `e01`, although `e01` precedes `e06` in the
concatenated input and both have the same effective instant. -/
theorem fetchWithHTTPClient_not_stable :
    ¬ StableOrder (concatItems unstableSources)
        (fetchWithHTTPClient sort_Slice (.ok ()) unstableSources).events := by
  intro h
  have h1 := h (timedEvent "e01" "2024-03-15T09:00:00+03:00")
    (timedEvent "e06" "2024-03-15T09:00:00+03:00") (by decide) (by decide) (by decide)
    (by decide)
  revert h1
  decide

/-! ## Civil fields stay in range -/

theorem yday_le (days : Int) : (yearAndYday days).2 ≤ 365 := by
  simp only [yearAndYday]
  omega

set_option maxRecDepth 1000000 in
theorem monthAndDay_lt (leap : Bool) (yday : Nat) (h : yday ≤ 365) :
    (monthAndDay leap yday).1 < 100 ∧ (monthAndDay leap yday).2 < 100 := by
  have key : ∀ l : Bool, ∀ y : Fin 366,
      (monthAndDay l y.val).1 < 100 ∧ (monthAndDay l y.val).2 < 100 := by decide
  exact key leap ⟨yday, by omega⟩

theorem month_lt (t : Time) : t.Month < 100 :=
  (monthAndDay_lt _ _ (yday_le _)).1

theorem day_lt (t : Time) : t.Day < 100 :=
  (monthAndDay_lt _ _ (yday_le _)).2

theorem hour_lt (t : Time) : t.Hour < 24 := by
  simp only [Time.Hour, Time.secOfDay]
  omega
theorem digitChar_inj (a b : Nat) (ha : a < 10) (hb : b < 10) (h : digitChar a = digitChar b) :
    a = b := by
  interval_cases a <;> interval_cases b <;> first | rfl | (exact absurd h (by decide))

theorem appendInt_two (n : Nat) (h : n < 100) :
    appendInt (n : Int) 2 = [digitChar (n / 10), digitChar (n % 10)] := by
  have h0 : ¬ ((n : Int) < 0) := by omega
  by_cases h1 : n < 10
  · have e1 : n / 10 = 0 := by omega
    have e2 : n % 10 = n := by omega
    simp [appendInt, utod, h1, h0, e1, e2, digitChar]
  · have h2 : n / 10 < 10 := by omega
    simp [appendInt, utod, h1, h2, h0]

theorem appendInt_four (n : Nat) (h : n < 10000) :
    appendInt (n : Int) 4
      = [digitChar (n / 1000), digitChar (n / 100 % 10), digitChar (n / 10 % 10),
         digitChar (n % 10)] := by
  have h0 : ¬ ((n : Int) < 0) := by omega
  by_cases h1 : n < 10
  · have e1 : n / 1000 = 0 := by omega
    have e2 : n / 100 % 10 = 0 := by omega
    have e3 : n / 10 % 10 = 0 := by omega
    have e4 : n % 10 = n := by omega
    simp [appendInt, utod, h1, h0, e1, e2, e3, e4, digitChar]
  · by_cases h2 : n / 10 < 10
    · have e1 : n / 1000 = 0 := by omega
      have e2 : n / 100 % 10 = 0 := by omega
      have e3 : n / 10 % 10 = n / 10 := by omega
      simp [appendInt, utod, h1, h2, h0, e1, e2, e3, digitChar]
    · by_cases h3 : n / 10 / 10 < 10
      · have e1 : n / 1000 = 0 := by omega
        have e2 : n / 100 % 10 = n / 10 / 10 := by omega
        have e3 : n / 10 % 10 = n / 10 % 10 := rfl
        simp [appendInt, utod, h1, h2, h3, h0, e1, e2, digitChar]
      · have h4 : n / 10 / 10 / 10 < 10 := by omega
        have e1 : n / 1000 = n / 10 / 10 / 10 := by omega
        have e2 : n / 100 % 10 = n / 10 / 10 % 10 := by omega
        simp [appendInt, utod, h1, h2, h3, h4, h0, e1, e2]

/-! ## The cache file name -/

theorem hourBucket_data (t : Time) (y : Nat) (hy : t.Year = (y : Int)) (hlt : y < 10000) :
    t.FormatHourBucket.data
      = [digitChar (y / 1000), digitChar (y / 100 % 10), digitChar (y / 10 % 10),
         digitChar (y % 10), digitChar (t.Month / 10), digitChar (t.Month % 10),
         digitChar (t.Day / 10), digitChar (t.Day % 10),
         digitChar (t.Hour / 10), digitChar (t.Hour % 10)] := by
  have hh := hour_lt t
  simp only [Time.FormatHourBucket, hy, appendInt_four y hlt, appendInt_two _ (month_lt t),
    appendInt_two _ (day_lt t), appendInt_two t.Hour (by omega)]
  rfl

/-- C7: the cache file name depends on the local wall-clock hour bucket only:
for two local times with years 0000 to 9999 the names
`"/tmp/gcal.events" + t.Format("2006010215")` are equal if and only if the
times have the same year, month, day and hour. -/
theorem cacheFilename_eq_iff (t1 t2 : Time)
    (h1 : 0 ≤ t1.Year ∧ t1.Year ≤ 9999) (h2 : 0 ≤ t2.Year ∧ t2.Year ≤ 9999) :
    cacheFilename t1 = cacheFilename t2 ↔
      (t1.Year = t2.Year ∧ t1.Month = t2.Month ∧ t1.Day = t2.Day ∧ t1.Hour = t2.Hour) := by
  obtain ⟨y1, hy1⟩ := Int.eq_ofNat_of_zero_le h1.1
  obtain ⟨y2, hy2⟩ := Int.eq_ofNat_of_zero_le h2.1
  have hl1 : y1 < 10000 := by omega
  have hl2 : y2 < 10000 := by omega
  have hm1 := month_lt t1
  have hm2 := month_lt t2
  have hd1 := day_lt t1
  have hd2 := day_lt t2
  have hh1 := hour_lt t1
  have hh2 := hour_lt t2
  constructor
  · intro h
    have hd : (cacheFilename t1).data = (cacheFilename t2).data := by rw [h]
    simp only [cacheFilename, String.data_append] at hd
    have hb := List.append_cancel_left hd
    rw [hourBucket_data t1 y1 hy1 hl1, hourBucket_data t2 y2 hy2 hl2] at hb
    simp only [List.cons.injEq, and_true] at hb
    obtain ⟨a1, a2, a3, a4, a5, a6, a7, a8, a9, a10⟩ := hb
    have b1 := digitChar_inj _ _ (by omega) (by omega) a1
    have b2 := digitChar_inj _ _ (by omega) (by omega) a2
    have b3 := digitChar_inj _ _ (by omega) (by omega) a3
    have b4 := digitChar_inj _ _ (by omega) (by omega) a4
    have b5 := digitChar_inj _ _ (by omega) (by omega) a5
    have b6 := digitChar_inj _ _ (by omega) (by omega) a6
    have b7 := digitChar_inj _ _ (by omega) (by omega) a7
    have b8 := digitChar_inj _ _ (by omega) (by omega) a8
    have b9 := digitChar_inj _ _ (by omega) (by omega) a9
    have b10 := digitChar_inj _ _ (by omega) (by omega) a10
    refine ⟨?_, ?_, ?_, ?_⟩ <;> omega
  · rintro ⟨e1, e2, e3, e4⟩
    simp only [cacheFilename, Time.FormatHourBucket, e1, e2, e3, e4]

theorem cacheFilename_eq_iff_witness :
    (0 ≤ (Date 2024 3 14 10 0 0 0 10800).Year ∧ (Date 2024 3 14 10 0 0 0 10800).Year ≤ 9999) ∧
    (0 ≤ (Date 2024 3 14 11 0 0 0 10800).Year ∧ (Date 2024 3 14 11 0 0 0 10800).Year ≤ 9999) ∧
    (cacheFilename (Date 2024 3 14 10 0 0 0 10800) = cacheFilename (Date 2024 3 14 11 0 0 0 10800) ↔
      ((Date 2024 3 14 10 0 0 0 10800).Year = (Date 2024 3 14 11 0 0 0 10800).Year ∧
       (Date 2024 3 14 10 0 0 0 10800).Month = (Date 2024 3 14 11 0 0 0 10800).Month ∧
       (Date 2024 3 14 10 0 0 0 10800).Day = (Date 2024 3 14 11 0 0 0 10800).Day ∧
       (Date 2024 3 14 10 0 0 0 10800).Hour = (Date 2024 3 14 11 0 0 0 10800).Hour)) :=
  ⟨by decide, by decide,
    cacheFilename_eq_iff (Date 2024 3 14 10 0 0 0 10800) (Date 2024 3 14 11 0 0 0 10800)
      (by decide) (by decide)⟩

/-! ## Consecutive civil days -/

theorem isLeap_iff (y : Int) :
    isLeap y = true ↔ (y % 4 = 0 ∧ (y % 100 ≠ 0 ∨ y % 400 = 0)) := by
  simp [isLeap]

theorem yearAndYday_char (n : Int) :
    n = 365 * ((yearAndYday n).1 - 1) + ((yearAndYday n).1 - 1) / 4
          - ((yearAndYday n).1 - 1) / 100 + ((yearAndYday n).1 - 1) / 400 + (yearAndYday n).2 ∧
      ((yearAndYday n).2 ≤ 364 ∨
        ((yearAndYday n).2 = 365 ∧ isLeap (yearAndYday n).1 = true)) := by
  simp only [yearAndYday, isLeap_iff]
  generalize hq : n / 146097 = q
  generalize hr : (n % 146097).toNat = r
  have hn : n = 146097 * q + r := by omega
  have hrlt : r < 146097 := by omega
  clear hq hr
  subst hn
  generalize ha : r / 36524 - r / 36524 / 4 = n100
  have hA : n100 ≤ 3 ∧ 36524 * n100 ≤ r ∧
      (r - 36524 * n100 < 36524 ∨ (n100 = 3 ∧ r - 36524 * n100 = 36524)) := by omega
  clear ha hrlt
  generalize hd1 : r - 36524 * n100 = d1 at hA ⊢
  have hr : r = 36524 * n100 + d1 := by omega
  generalize hb : d1 / 1461 = n4
  have hB : n4 ≤ 24 ∧ 1461 * n4 ≤ d1 ∧ d1 - 1461 * n4 < 1461 ∧
      (d1 = 36524 → n4 = 24 ∧ d1 - 1461 * n4 = 1460) ∧
      (d1 < 36524 → (n4 = 24 → d1 - 1461 * n4 < 1460)) := by omega
  clear hb
  generalize hd2 : d1 - 1461 * n4 = d2 at hB ⊢
  have hd1' : d1 = 1461 * n4 + d2 := by omega
  generalize hc : d2 / 365 - d2 / 365 / 4 = n1
  have hC : n1 ≤ 3 ∧ 365 * n1 ≤ d2 ∧
      (d2 - 365 * n1 < 365 ∨ (n1 = 3 ∧ d2 - 365 * n1 = 365 ∧ d2 = 1460)) := by omega
  clear hc
  generalize hd3 : d2 - 365 * n1 = d3 at hC ⊢
  have hd2' : d2 = 365 * n1 + d3 := by omega
  clear hd1 hd2 hd3
  subst hr
  subst hd1'
  subst hd2'
  push_cast
  omega
theorem civil_step (y y' : Int) (d d' : Nat) (n : Int)
    (h1 : n = 365 * (y - 1) + (y - 1) / 4 - (y - 1) / 100 + (y - 1) / 400 + d)
    (h2 : d ≤ 364 ∨ (d = 365 ∧ (y % 4 = 0 ∧ (y % 100 ≠ 0 ∨ y % 400 = 0))))
    (h3 : n + 1 = 365 * (y' - 1) + (y' - 1) / 4 - (y' - 1) / 100 + (y' - 1) / 400 + d')
    (h4 : d' ≤ 364 ∨ (d' = 365 ∧ (y' % 4 = 0 ∧ (y' % 100 ≠ 0 ∨ y' % 400 = 0)))) :
    (y' = y ∧ d' = d + 1) ∨
      (d' = 0 ∧ ((d = 365 ∧ (y % 4 = 0 ∧ (y % 100 ≠ 0 ∨ y % 400 = 0))) ∨
         (d = 364 ∧ ¬ (y % 4 = 0 ∧ (y % 100 ≠ 0 ∨ y % 400 = 0))))) := by
  have a1 : 4 * ((y - 1) / 4) ≤ y - 1 := by omega
  have a2 : y - 1 ≤ 4 * ((y - 1) / 4) + 3 := by omega
  have a3 : 100 * ((y - 1) / 100) ≤ y - 1 := by omega
  have a4 : y - 1 ≤ 100 * ((y - 1) / 100) + 99 := by omega
  have a5 : 400 * ((y - 1) / 400) ≤ y - 1 := by omega
  have a6 : y - 1 ≤ 400 * ((y - 1) / 400) + 399 := by omega
  have b1 : 4 * ((y' - 1) / 4) ≤ y' - 1 := by omega
  have b2 : y' - 1 ≤ 4 * ((y' - 1) / 4) + 3 := by omega
  have b3 : 100 * ((y' - 1) / 100) ≤ y' - 1 := by omega
  have b4 : y' - 1 ≤ 100 * ((y' - 1) / 100) + 99 := by omega
  have b5 : 400 * ((y' - 1) / 400) ≤ y' - 1 := by omega
  have b6 : y' - 1 ≤ 400 * ((y' - 1) / 400) + 399 := by omega
  have c1 : (d : Int) ≤ 365 := by omega
  have c2 : (d' : Int) ≤ 365 := by omega
  have c3 : (0 : Int) ≤ d := by omega
  have c4 : (0 : Int) ≤ d' := by omega
  have hD1 : y' ≤ y + 1 := by
    by_contra hc
    have hc1 : y + 2 ≤ y' := by omega
    linarith
  have hD0 : y ≤ y' + 1 := by
    by_contra hc
    have hc1 : y' + 2 ≤ y := by omega
    linarith
  have hy : y' = y ∨ y' = y + 1 ∨ y = y' + 1 := by omega
  rcases hy with hy | hy | hy
  · subst hy
    omega
  · subst hy
    omega
  · subst hy
    omega

/-- Day of the month of day number `n`. -/
theorem day_eq (t : Time) :
    t.Day = (monthAndDay (isLeap (yearAndYday t.absDay).1) (yearAndYday t.absDay).2).2 := rfl

theorem yearAndYday_succ (n : Int) :
    ((yearAndYday (n + 1)).1 = (yearAndYday n).1 ∧
        (yearAndYday (n + 1)).2 = (yearAndYday n).2 + 1 ∧
        ((yearAndYday n).2 + 1 ≤ 364 ∨ isLeap (yearAndYday n).1 = true)) ∨
      ((yearAndYday (n + 1)).2 = 0 ∧
        (((yearAndYday n).2 = 365 ∧ isLeap (yearAndYday n).1 = true) ∨
         ((yearAndYday n).2 = 364 ∧ ¬ isLeap (yearAndYday n).1 = true))) := by
  have c0 := yearAndYday_char n
  have c1 := yearAndYday_char (n + 1)
  rw [isLeap_iff] at c0 c1
  have st := civil_step _ _ _ _ n c0.1 c0.2 c1.1 c1.2
  rw [isLeap_iff]
  rcases st with ⟨e1, e2⟩ | st
  · left
    refine ⟨e1, e2, ?_⟩
    rw [← e1]
    have := c1.2
    omega
  · right
    exact st

set_option maxRecDepth 1000000 in
theorem monthAndDay_succ_ne (leap : Bool) (d : Nat) (h : d + 1 ≤ 364 ∨ (d + 1 ≤ 365 ∧ leap = true)) :
    (monthAndDay leap (d + 1)).2 ≠ (monthAndDay leap d).2 := by
  have key : ∀ l : Bool, ∀ y : Fin 365, (y.val + 1 ≤ 364 ∨ l = true) →
      (monthAndDay l (y.val + 1)).2 ≠ (monthAndDay l y.val).2 := by decide
  exact key leap ⟨d, by omega⟩ (h.elim Or.inl (fun h2 => Or.inr h2.2))

theorem dayOfMonth_succ_ne (n : Int) :
    (monthAndDay (isLeap (yearAndYday (n + 1)).1) (yearAndYday (n + 1)).2).2
      ≠ (monthAndDay (isLeap (yearAndYday n).1) (yearAndYday n).2).2 := by
  have hle := yday_le (n + 1)
  rcases yearAndYday_succ n with ⟨e1, e2, e3⟩ | ⟨e1, e2⟩
  · rw [e1, e2]
    rw [e2] at hle
    exact monthAndDay_succ_ne _ _ (e3.elim Or.inl (fun h2 => Or.inr ⟨hle, h2⟩))
  · rw [e1]
    rcases e2 with ⟨e2, e3⟩ | ⟨e2, e3⟩
    · rw [e2, e3]
      cases isLeap (yearAndYday (n + 1)).1 <;> decide
    · rw [e2, Bool.not_eq_true] at *
      rw [e3]
      cases isLeap (yearAndYday (n + 1)).1 <;> decide

/-! ## `prettyDate` -/

theorem in_own_zone (t : Time) (loc : Location) (h : loc t.sec = t.off) : t.In loc = t := by
  cases t
  simp only [Time.In] at h ⊢
  rw [h]

/-- What `prettyDate` gets right: let the event timestamp be written with the
offset of the display zone, let the clock be read in the display zone, and let
that zone keep its offset over the next 24 hours.  If the event falls on the
calendar day of now, `prettyDate` returns `Today, HH:MM:SS`; if it falls on
the calendar day after that of now, it returns `Tomorrow, HH:MM:SS`;
`HH:MM:SS` is the time of day of the event in the display zone. -/
theorem prettyDate_today_tomorrow (tzLocal loc : Location) (now : Int) (d : String) (t : Time)
    (hparse : parseRFC3339 d = some t) (hzone : loc t.sec = t.off)
    (hnow : tzLocal now = loc now) (hnext : tzLocal (now + 86400) = loc now) :
    ((t.In loc).absDay = ((timeNow tzLocal now).In loc).absDay →
        prettyDate tzLocal loc now d = "Today, " ++ (t.In loc).FormatClock) ∧
      ((t.In loc).absDay = ((timeNow tzLocal now).In loc).absDay + 1 →
        prettyDate tzLocal loc now d = "Tomorrow, " ++ (t.In loc).FormatClock) := by
  have hin := in_own_zone t loc hzone
  have hnowDay : ((timeNow tzLocal now).In loc).absDay = (timeNow tzLocal now).absDay := by
    simp only [Time.In, timeNow, Time.absDay, hnow]
  have hnextDay : ((timeNow tzLocal now).AddSec 86400 tzLocal).absDay
      = (timeNow tzLocal now).absDay + 1 := by
    simp only [Time.AddSec, timeNow, Time.absDay, hnext, hnow]
    omega
  rw [hin, hnowDay]
  simp only [prettyDate, hparse, Option.getD_some, prettyDateOf, hin]
  constructor
  · intro h
    have hd : t.Day = (timeNow tzLocal now).Day := by rw [day_eq, day_eq, h]
    rw [if_pos hd]
    rfl
  · intro h
    have hne : t.Day ≠ (timeNow tzLocal now).Day := by
      rw [day_eq, day_eq, h]
      exact dayOfMonth_succ_ne _
    have hd : t.Day = ((timeNow tzLocal now).AddSec 86400 tzLocal).Day := by
      rw [day_eq, day_eq, h, hnextDay]
    rw [if_neg hne, if_pos hd]
    rfl

theorem prettyDate_today_tomorrow_example :
    (parseRFC3339 "2024-03-14T18:30:00+03:00" = some (Date 2024 3 14 18 30 0 0 10800) ∧
      FixedZone 10800 (Date 2024 3 14 18 30 0 0 10800).sec = (Date 2024 3 14 18 30 0 0 10800).off ∧
      FixedZone 10800 (Date 2024 3 14 10 0 0 0 10800).sec
        = FixedZone 10800 (Date 2024 3 14 10 0 0 0 10800).sec ∧
      prettyDate (FixedZone 10800) (FixedZone 10800) (Date 2024 3 14 10 0 0 0 10800).sec
        "2024-03-14T18:30:00+03:00" = "Today, 18:30:00") ∧
    (parseRFC3339 "2024-03-15T09:00:00+03:00" = some (Date 2024 3 15 9 0 0 0 10800) ∧
      prettyDate (FixedZone 10800) (FixedZone 10800) (Date 2024 3 14 10 0 0 0 10800).sec
        "2024-03-15T09:00:00+03:00" = "Tomorrow, 09:00:00") :=
  ⟨⟨by decide, by decide, rfl,
     ((prettyDate_today_tomorrow (FixedZone 10800) (FixedZone 10800)
        (Date 2024 3 14 10 0 0 0 10800).sec "2024-03-14T18:30:00+03:00"
        (Date 2024 3 14 18 30 0 0 10800) (by decide) (by decide) rfl rfl).1 (by decide)).trans
       (by decide)⟩,
   ⟨by decide,
     ((prettyDate_today_tomorrow (FixedZone 10800) (FixedZone 10800)
        (Date 2024 3 14 10 0 0 0 10800).sec "2024-03-15T09:00:00+03:00"
        (Date 2024 3 15 9 0 0 0 10800) (by decide) (by decide) rfl rfl).2 (by decide)).trans
       (by decide)⟩⟩

/-- C5 (the code at the failing input): `prettyDate` takes the day of the
event in the zone the timestamp is written in and the day of now in the local
zone of the machine, not in the display zone, and converts to the display
zone only to print the time of day.  With the display zone at UTC+3: the event
`2024-03-14T23:30:00-05:00` falls on the calendar day after now
(2024-03-14 10:00) in the display zone and is labelled `Today, 07:30:00`; on a
machine whose local zone is UTC, at 2024-03-15 01:00 display time, the event
`2024-03-15T09:00:00+03:00` falls on the calendar day of now in the display
zone and is labelled `Tomorrow, 09:00:00`. -/
theorem prettyDate_day_in_wrong_zone :
    ((parseRFC3339 "2024-03-14T23:30:00-05:00").map
        (fun t => (t.In (FixedZone 10800)).absDay)
      = some (((timeNow (FixedZone 10800) (Date 2024 3 14 10 0 0 0 10800).sec).In
          (FixedZone 10800)).absDay + 1) ∧
      prettyDate (FixedZone 10800) (FixedZone 10800) (Date 2024 3 14 10 0 0 0 10800).sec
        "2024-03-14T23:30:00-05:00" = "Today, 07:30:00") ∧
    ((parseRFC3339 "2024-03-15T09:00:00+03:00").map
        (fun t => (t.In (FixedZone 10800)).absDay)
      = some ((timeNow UTC (Date 2024 3 14 22 0 0 0 0).sec).In (FixedZone 10800)).absDay ∧
      ((timeNow UTC (Date 2024 3 14 22 0 0 0 0).sec).In (FixedZone 10800)).FormatHourBucket
        = "2024031501" ∧
      prettyDate UTC (FixedZone 10800) (Date 2024 3 14 22 0 0 0 0).sec
        "2024-03-15T09:00:00+03:00" = "Tomorrow, 09:00:00") := by
  decide

/-- C6 (the code at the failing input): whenever the day-of-month number of
the event equals that of now, `prettyDate` answers `Today`, whatever the month
and year.  On 2024-02-14 an event on 2024-03-14, which is neither today nor
tomorrow, is labelled `Today`, and on 2023-02-13 an event on 2023-03-14 is
labelled `Tomorrow`. -/
theorem prettyDate_other_month_misclassified :
    (∀ (tzLocal loc : Location) (now : Int) (t : Time), t.Day = (timeNow tzLocal now).Day →
      prettyDateOf tzLocal loc now t = (t.In loc).FormatToday) ∧
      prettyDate (FixedZone 10800) (FixedZone 10800) (Date 2024 2 14 10 0 0 0 10800).sec
        "2024-03-14T18:30:00+03:00" = "Today, 18:30:00" ∧
      prettyDate (FixedZone 10800) (FixedZone 10800) (Date 2023 2 13 10 0 0 0 10800).sec
        "2023-03-14T18:30:00+03:00" = "Tomorrow, 18:30:00" := by
  refine ⟨?_, by decide, by decide⟩
  intro tzLocal loc now t ht
  simp [prettyDateOf, ht]

/-! ## `main` -/

/-- C8 (as stated, refuted): when the calendars hold no event the digest is
empty; the first run misses the cache, emits the empty digest and writes it,
and the second run on the resulting file system in the same hour bucket misses
again: it loads the configuration and issues the list request once more. -/
theorem main_empty_digest_refetched :
    (main sort_Slice (sampleWorld (Date 2024 3 14 10 0 0 0 10800).sec [])).cacheHit = false ∧
    (main sort_Slice (sampleWorld (Date 2024 3 14 10 0 0 0 10800).sec [])).exit = .ok ∧
    (main sort_Slice (sampleWorld (Date 2024 3 14 10 0 0 0 10800).sec [])).stdout = "" ∧
    (main sort_Slice
      { sampleWorld (Date 2024 3 14 10 0 0 0 10800).sec [] with
        fs := (main sort_Slice (sampleWorld (Date 2024 3 14 10 0 0 0 10800).sec [])).fs }).cacheHit
      = false ∧
    (main sort_Slice
      { sampleWorld (Date 2024 3 14 10 0 0 0 10800).sec [] with
        fs := (main sort_Slice (sampleWorld (Date 2024 3 14 10 0 0 0 10800).sec [])).fs }).configLoads
      = 1 ∧
    (main sort_Slice
      { sampleWorld (Date 2024 3 14 10 0 0 0 10800).sec [] with
        fs := (main sort_Slice (sampleWorld (Date 2024 3 14 10 0 0 0 10800).sec [])).fs }).requests
      = ["work"] := by
  decide

/-- C8 (amended): if a first run misses the cache, emits a non-empty digest
`d` and its cache write succeeds, then any second run in the same hour bucket
on the file system the first run left emits exactly `d` through the cache-hit
path, with no configuration load and no list request. -/
theorem main_idempotent_within_hour
    (sortSlice : (Event → Event → Bool) → List Event → List Event) (w w2 : World)
    (hmiss : (main sortSlice w).cacheHit = false) (hok : (main sortSlice w).exit = .ok)
    (hwrite : w.writeOk = true) (hne : (main sortSlice w).stdout ≠ "")
    (hfs : w2.fs = (main sortSlice w).fs)
    (hbucket : cacheFilename (timeNow w2.tzLocal w2.now) = cacheFilename (timeNow w.tzLocal w.now)) :
    (main sortSlice w2).cacheHit = true ∧ (main sortSlice w2).exit = .ok ∧
      (main sortSlice w2).stdout = (main sortSlice w).stdout ∧
      (main sortSlice w2).configLoads = 0 ∧ (main sortSlice w2).requests = [] := by
  have key : readFromCache (main sortSlice w).fs (cacheFilename (timeNow w.tzLocal w.now))
      = (main sortSlice w).stdout := by
    by_cases hc : readFromCache w.fs (cacheFilename (timeNow w.tzLocal w.now)) ≠ ""
    · simp [main, hc] at hmiss
    · cases hd : w.decodeFile with
      | error err => simp [main, hc, hd] at hok
      | ok hasToken =>
        cases hasToken with
        | false => simp [main, hc, hd] at hok
        | true =>
          cases he : (fetchWithHTTPClient sortSlice w.newService w.sources).err with
          | some err => simp [main, hc, hd, he] at hok
          | none =>
            have hc2 : (w.fs (cacheFilename (timeNow w.tzLocal w.now))).getD "" = "" := by
              simpa [readFromCache] using hc
            simp [main, hc2, hd, he, writeCache, hwrite, readFromCache]
  have hread : readFromCache w2.fs (cacheFilename (timeNow w2.tzLocal w2.now))
      = (main sortSlice w).stdout := by rw [hfs, hbucket, key]
  generalize (main sortSlice w).stdout = digest at hread hne
  simp [main, hread, hne]

theorem main_idempotent_within_hour_witness :
    (main sort_Slice (sampleWorld (Date 2024 3 14 10 0 0 0 10800).sec
        [timedEvent "review" "2024-03-14T18:30:00+03:00"])).cacheHit = false ∧
    (main sort_Slice (sampleWorld (Date 2024 3 14 10 0 0 0 10800).sec
        [timedEvent "review" "2024-03-14T18:30:00+03:00"])).stdout = "[Today, 18:30:00] review\n\n" ∧
    (main sort_Slice
        { sampleWorld (Date 2024 3 14 10 0 0 0 10800).sec
            [timedEvent "review" "2024-03-14T18:30:00+03:00"] with
          fs := (main sort_Slice (sampleWorld (Date 2024 3 14 10 0 0 0 10800).sec
            [timedEvent "review" "2024-03-14T18:30:00+03:00"])).fs }).cacheHit = true ∧
    (main sort_Slice
        { sampleWorld (Date 2024 3 14 10 0 0 0 10800).sec
            [timedEvent "review" "2024-03-14T18:30:00+03:00"] with
          fs := (main sort_Slice (sampleWorld (Date 2024 3 14 10 0 0 0 10800).sec
            [timedEvent "review" "2024-03-14T18:30:00+03:00"])).fs }).stdout
      = (main sort_Slice (sampleWorld (Date 2024 3 14 10 0 0 0 10800).sec
          [timedEvent "review" "2024-03-14T18:30:00+03:00"])).stdout :=
  have h := main_idempotent_within_hour sort_Slice
    (sampleWorld (Date 2024 3 14 10 0 0 0 10800).sec
      [timedEvent "review" "2024-03-14T18:30:00+03:00"])
    { sampleWorld (Date 2024 3 14 10 0 0 0 10800).sec
        [timedEvent "review" "2024-03-14T18:30:00+03:00"] with
      fs := (main sort_Slice (sampleWorld (Date 2024 3 14 10 0 0 0 10800).sec
        [timedEvent "review" "2024-03-14T18:30:00+03:00"])).fs }
    (by decide) (by decide) (by decide) (by decide) rfl rfl
  ⟨by decide, by decide, h.1, h.2.2.1⟩

/-- C10 (the code at the failing input): for an all-day event `main` passes
the empty `Start.DateTime` to `prettyDate`, so whatever the date, the entry
carries the label of the zero time (0001-01-01) and not the label of the
event's start, which `prettyDateOf` gives for the instant `timeDateChooser`
derives; on the first day of a month that label even reads `Today`. -/
theorem buildSummary_allDay_label :
    (∀ (tzLocal loc : Location) (now : Int) (title date : String),
      buildSummary tzLocal loc now [allDayEvent title date]
        = "[" ++ prettyDateOf tzLocal loc now Time.zero ++ "] " ++ title ++ "\n" ++ "\n") ∧
      buildSummary (FixedZone 10800) (FixedZone 10800) (Date 2024 3 14 10 0 0 0 10800).sec
        [allDayEvent "birthday" "2024-03-16"] = "[Mon, 01 Jan 03:00:00] birthday\n\n" ∧
      prettyDateOf (FixedZone 10800) (FixedZone 10800) (Date 2024 3 14 10 0 0 0 10800).sec
        (effectiveInstant (allDayEvent "birthday" "2024-03-16")) = "Sat, 16 Mar 03:00:00" ∧
      buildSummary (FixedZone 10800) (FixedZone 10800) (Date 2024 3 1 10 0 0 0 10800).sec
        [allDayEvent "birthday" "2024-03-16"] = "[Today, 03:00:00] birthday\n\n" := by
  refine ⟨?_, by decide, by decide, by decide⟩
  intro tzLocal loc now title date
  have hp : parseRFC3339 "" = none := by decide
  simp [buildSummary, renderEvent, allDayEvent, prettyDate, hp]

/-! ## `timeDateChooser` -/

/-- C9 (as stated, refuted): with the local zone at UTC+3, the all-day event
on 2024-03-15 gets the instant 2024-03-15T00:00:00Z, which is not local
midnight of that date; the timed event at 00:30 local time of that date is at
or after local midnight and yet is ordered strictly before the all-day
event, which therefore sorts after it.  And a timed event at exactly the
instant of the all-day event (03:00 local time, midnight UTC) ties with it:
fetched first, it stays first, so the all-day event sorts after it as well. -/
theorem allDay_sorts_after_local_midnight :
    (effectiveInstant (allDayEvent "holiday" "2024-03-15") = Date 2024 3 15 0 0 0 0 0 ∧
      ¬ (effectiveInstant (allDayEvent "holiday" "2024-03-15")).sec
          = (Date 2024 3 15 0 0 0 0 10800).sec ∧
      (Date 2024 3 15 0 0 0 0 10800).instantLE
        (effectiveInstant (timedEvent "night shift" "2024-03-15T00:30:00+03:00")) ∧
      eventLess (timedEvent "night shift" "2024-03-15T00:30:00+03:00")
        (allDayEvent "holiday" "2024-03-15") = true ∧
      (fetchWithHTTPClient sort_Slice (.ok ())
          [⟨"home", .ok [allDayEvent "holiday" "2024-03-15"]⟩,
           ⟨"work", .ok [timedEvent "night shift" "2024-03-15T00:30:00+03:00"]⟩]).events
        = [timedEvent "night shift" "2024-03-15T00:30:00+03:00",
           allDayEvent "holiday" "2024-03-15"]) ∧
    (effectiveInstant (timedEvent "breakfast" "2024-03-15T03:00:00+03:00")
        = (effectiveInstant (allDayEvent "holiday" "2024-03-15")).In (FixedZone 10800) ∧
      (Date 2024 3 15 0 0 0 0 0).instantLE
        (effectiveInstant (timedEvent "breakfast" "2024-03-15T03:00:00+03:00")) ∧
      (fetchWithHTTPClient sort_Slice (.ok ())
          [⟨"work", .ok [timedEvent "breakfast" "2024-03-15T03:00:00+03:00"]⟩,
           ⟨"home", .ok [allDayEvent "holiday" "2024-03-15"]⟩]).events
        = [timedEvent "breakfast" "2024-03-15T03:00:00+03:00",
           allDayEvent "holiday" "2024-03-15"]) := by
  decide

theorem digitChar_isDigit (k : Nat) :
    (decide ('0' ≤ digitChar k) && decide (digitChar k ≤ '9')) = true := by
  unfold digitChar
  split <;> decide

theorem digitVal_digitChar (k : Nat) (h : k < 10) : digitVal (digitChar k) = k := by
  interval_cases k <;> rfl

theorem formatDate_data (year month day : Nat) (hy : year < 10000) (hm : month < 100)
    (hd : day < 100) :
    (formatDate year month day).data
      = [digitChar (year / 1000), digitChar (year / 100 % 10), digitChar (year / 10 % 10),
         digitChar (year % 10), '-', digitChar (month / 10), digitChar (month % 10), '-',
         digitChar (day / 10), digitChar (day % 10)] := by
  simp only [formatDate, appendInt_four year hy, appendInt_two month hm, appendInt_two day hd]
  rfl

theorem parseDatePart_formatDate (year month day : Nat) (hy : year < 10000)
    (hm : 1 ≤ month ∧ month ≤ 12) (hd : day < 100) :
    parseDatePart (formatDate year month day).data = some (year, month, day, []) := by
  rw [formatDate_data year month day hy (by omega) hd]
  have e1 : (((year / 1000) * 10 + year / 100 % 10) * 10 + year / 10 % 10) * 10 + year % 10
      = year := by omega
  have e2 : month / 10 * 10 + month % 10 = month := by omega
  have e3 : day / 10 * 10 + day % 10 = day := by omega
  have m0 : ¬ (month = 0 ∨ 12 < month) := by omega
  have v1 : digitVal (digitChar (year / 1000)) = year / 1000 :=
    digitVal_digitChar _ (by omega)
  have v2 : digitVal (digitChar (month / 10)) = month / 10 := digitVal_digitChar _ (by omega)
  have v3 : digitVal (digitChar (day / 10)) = day / 10 := digitVal_digitChar _ (by omega)
  simp [parseDatePart, parseYear, getnum, skipChar, isDigitAt, atoiDigits, digitChar_isDigit,
    digitVal_digitChar, Nat.mod_lt, v1, v2, v3, e1, e2, e3]
  omega

theorem parseDate_formatDate (year month day : Nat) (hy : year ≤ 9999)
    (hm : 1 ≤ month ∧ month ≤ 12) (hd : 1 ≤ day ∧ day ≤ daysIn month year) :
    parseDate (formatDate year month day) = some (Date year month day 0 0 0 0 0) := by
  have hday : day < 100 := by
    have : daysIn month year ≤ 31 := by
      unfold daysIn
      split
      · omega
      · obtain ⟨h1, h2⟩ := hm
        interval_cases month <;> simp [daysBefore]
    omega
  have hr : dayInRange year month day = true := by
    simp [dayInRange, hd.1, hd.2]
  simp [parseDate, parseDatePart_formatDate year month day (by omega) hm hday, hr]

theorem daysIn_le (month : Nat) (year : Int) (hm : 1 ≤ month ∧ month ≤ 12) :
    daysIn month year ≤ 31 := by
  unfold daysIn
  split
  · omega
  · obtain ⟨h1, h2⟩ := hm
    interval_cases month <;> simp [daysBefore]

theorem getnum_two (a b : Nat) (ha : a < 10) (hb : b < 10) (rest : List Char) (fixed : Bool) :
    getnum (digitChar a :: digitChar b :: rest) fixed = some (a * 10 + b, rest) := by
  simp [getnum, isDigitAt, digitChar_isDigit, digitVal_digitChar, ha, hb]

theorem parseDatePart_cons (year month day : Nat) (rest : List Char) (hy : year < 10000)
    (hm : 1 ≤ month ∧ month ≤ 12) (hd : day < 100) :
    parseDatePart (digitChar (year / 1000) :: digitChar (year / 100 % 10) ::
      digitChar (year / 10 % 10) :: digitChar (year % 10) :: '-' :: digitChar (month / 10) ::
      digitChar (month % 10) :: '-' :: digitChar (day / 10) :: digitChar (day % 10) :: rest)
      = some (year, month, day, rest) := by
  have e1 : (((year / 1000) * 10 + year / 100 % 10) * 10 + year / 10 % 10) * 10 + year % 10
      = year := by omega
  have e2 : month / 10 * 10 + month % 10 = month := by omega
  have e3 : day / 10 * 10 + day % 10 = day := by omega
  have v1 : digitVal (digitChar (year / 1000)) = year / 1000 :=
    digitVal_digitChar _ (by omega)
  have g2 := getnum_two (month / 10) (month % 10) (by omega) (by omega)
  have g3 := getnum_two (day / 10) (day % 10) (by omega) (by omega)
  have hyr : parseYear (digitChar (year / 1000) :: digitChar (year / 100 % 10) ::
      digitChar (year / 10 % 10) :: digitChar (year % 10) :: '-' :: digitChar (month / 10) ::
      digitChar (month % 10) :: '-' :: digitChar (day / 10) :: digitChar (day % 10) :: rest)
      = some (year, '-' :: digitChar (month / 10) ::
      digitChar (month % 10) :: '-' :: digitChar (day / 10) :: digitChar (day % 10) :: rest) := by
    simp [parseYear, isDigitAt, atoiDigits, digitChar_isDigit, digitVal_digitChar, Nat.mod_lt,
      v1, e1]
  have m0 : ¬ (month = 0 ∨ 12 < month) := by omega
  simp only [parseDatePart, hyr, Option.bind_eq_bind, Option.some_bind, skipChar, if_true,
    g2, g3, e2, e3, m0, if_false, Option.pure_def]

theorem parseFraction_formatZone (zone : Option (Bool × Nat × Nat)) :
    parseFraction (formatZone zone) = (0, formatZone zone) := by
  rcases zone with _ | ⟨neg, h, m⟩
  · simp [parseFraction, formatZone]
  · cases neg <;> simp [parseFraction, formatZone]

theorem parseZone_formatZone (zone : Option (Bool × Nat × Nat))
    (hz : ∀ neg h m, zone = some (neg, h, m) → h < 24 ∧ m < 60) :
    parseZone (formatZone zone) = some (zoneSeconds zone, []) := by
  rcases zone with _ | ⟨neg, h, m⟩
  · simp [parseZone, formatZone, zoneSeconds]
  · obtain ⟨hh, hmm⟩ := hz neg h m rfl
    have g1 := getnum_two (h / 10) (h % 10) (by omega) (by omega) [] true
    have g2 := getnum_two (m / 10) (m % 10) (by omega) (by omega) [] true
    have e1 : h / 10 * 10 + h % 10 = h := by omega
    have e2 : m / 10 * 10 + m % 10 = m := by omega
    have c : ¬ (24 < h ∨ 60 < m) := by omega
    cases neg <;>
      simp [parseZone, formatZone, zoneSeconds, appendInt_two h (by omega),
        appendInt_two m (by omega), g1, g2, e1, e2, c]

theorem parseRFC3339_formatRFC3339 (year month day hour min sec : Nat)
    (zone : Option (Bool × Nat × Nat)) (hy : year ≤ 9999) (hm : 1 ≤ month ∧ month ≤ 12)
    (hd : 1 ≤ day ∧ day ≤ daysIn month year) (hH : hour < 24) (hM : min < 60) (hS : sec < 60)
    (hz : ∀ neg h m, zone = some (neg, h, m) → h < 24 ∧ m < 60) :
    parseRFC3339 (formatRFC3339 year month day hour min sec zone)
      = some (Date year month day hour min sec 0 (zoneSeconds zone)) := by
  have hday : day < 100 := by
    have := daysIn_le month year hm
    omega
  have hr : dayInRange year month day = true := by
    simp [dayInRange, hd.1, hd.2]
  have hdata : (formatRFC3339 year month day hour min sec zone).data
      = digitChar (year / 1000) :: digitChar (year / 100 % 10) ::
        digitChar (year / 10 % 10) :: digitChar (year % 10) :: '-' :: digitChar (month / 10) ::
        digitChar (month % 10) :: '-' :: digitChar (day / 10) :: digitChar (day % 10) ::
        ('T' :: digitChar (hour / 10) :: digitChar (hour % 10) :: ':' :: digitChar (min / 10) ::
        digitChar (min % 10) :: ':' :: digitChar (sec / 10) :: digitChar (sec % 10) ::
        formatZone zone) := by
    simp only [formatRFC3339, appendInt_four year (by omega), appendInt_two month (by omega),
      appendInt_two day hday, appendInt_two hour (by omega), appendInt_two min (by omega),
      appendInt_two sec (by omega)]
    rfl
  have gH := getnum_two (hour / 10) (hour % 10) (by omega) (by omega)
  have gM := getnum_two (min / 10) (min % 10) (by omega) (by omega)
  have gS := getnum_two (sec / 10) (sec % 10) (by omega) (by omega)
  have e4 : hour / 10 * 10 + hour % 10 = hour := by omega
  have e5 : min / 10 * 10 + min % 10 = min := by omega
  have e6 : sec / 10 * 10 + sec % 10 = sec := by omega
  have hH' : ¬ 24 ≤ hour := by omega
  have hM' : ¬ 60 ≤ min := by omega
  have hS' : ¬ 60 ≤ sec := by omega
  simp only [parseRFC3339, hdata, parseDatePart_cons year month day _ (by omega) hm hday,
    Option.bind_eq_bind, Option.some_bind, skipChar, if_true, gH, gM, gS, e4, e5, e6, hH', hM',
    hS', if_false, parseFraction_formatZone, parseZone_formatZone zone hz, hr, Option.pure_def,
    ne_eq, not_true_eq_false, Bool.not_true, Bool.false_eq_true]

theorem fetch_index_lt_of_instantLT
    (sortSlice : (Event → Event → Bool) → List Event → List Event)
    (hsort : SortSliceSpec sortSlice) (newService : Except String Unit) (sources : List Source)
    (i j : Nat) (hi : i < (fetchWithHTTPClient sortSlice newService sources).events.length)
    (hj : j < (fetchWithHTTPClient sortSlice newService sources).events.length)
    (hlt : (effectiveInstant ((fetchWithHTTPClient sortSlice newService sources).events[i])).instantLT
      (effectiveInstant ((fetchWithHTTPClient sortSlice newService sources).events[j]))) :
    i < j := by
  have hp := fetch_events_pairwise sortSlice hsort newService sources
  rw [List.pairwise_iff_getElem] at hp
  rcases Nat.lt_trichotomy i j with h | h | h
  · exact h
  · subst h
    simp only [Time.instantLT] at hlt
    omega
  · have := hp j i hj hi h
    rw [eventLess, before_false_iff] at this
    simp only [Time.instantLT] at hlt
    simp only [Time.instantLE] at this
    omega

/-- C9 (amended): the effective instant of an all-day event whose
`Start.Date` is the text `YYYY-MM-DD` of a calendar date is midnight UTC of
that date (not midnight in the local zone); that of a timed event whose
`Start.DateTime` is the RFC3339 text of a civil time with a zone offset is
that civil time at that offset; consequently, in the output of
`fetchWithHTTPClient` the all-day event of a date never comes after an event
whose instant is after midnight UTC of that date. -/
theorem allDay_instant_is_utc_midnight (year month day : Nat) (event : Event)
    (hy : year ≤ 9999) (hm : 1 ≤ month ∧ month ≤ 12) (hd : 1 ≤ day ∧ day ≤ daysIn month year)
    (hdate : event.Start.Date = formatDate year month day) :
    effectiveInstant event = Date year month day 0 0 0 0 0 ∧
      (∀ (other : Event) (y2 m2 d2 hour min sec : Nat) (zone : Option (Bool × Nat × Nat)),
        y2 ≤ 9999 → 1 ≤ m2 ∧ m2 ≤ 12 → 1 ≤ d2 ∧ d2 ≤ daysIn m2 y2 →
        hour < 24 → min < 60 → sec < 60 →
        (∀ neg h m, zone = some (neg, h, m) → h < 24 ∧ m < 60) →
        other.Start.Date = "" → other.Start.DateTime = formatRFC3339 y2 m2 d2 hour min sec zone →
        effectiveInstant other = Date y2 m2 d2 hour min sec 0 (zoneSeconds zone)) ∧
      (∀ (sortSlice : (Event → Event → Bool) → List Event → List Event),
        SortSliceSpec sortSlice → ∀ (newService : Except String Unit) (sources : List Source)
          (i j : Nat) (hi : i < (fetchWithHTTPClient sortSlice newService sources).events.length)
          (hj : j < (fetchWithHTTPClient sortSlice newService sources).events.length),
          (fetchWithHTTPClient sortSlice newService sources).events[i] = event →
          (Date year month day 0 0 0 0 0).instantLT
            (effectiveInstant ((fetchWithHTTPClient sortSlice newService sources).events[j])) →
          i < j) := by
  have hlen : 0 < (formatDate year month day).length := by
    have hday : day < 100 := by
      have := daysIn_le month year hm
      omega
    have := formatDate_data year month day (by omega) (by omega) hday
    simp [String.length, this]
  have h1 : effectiveInstant event = Date year month day 0 0 0 0 0 := by
    simp [effectiveInstant, timeDateChooser, hdate, hlen, parseDate_formatDate year month day hy hm hd]
  refine ⟨h1, ?_, ?_⟩
  · intro other y2 m2 d2 hour min sec zone hy2 hm2 hd2 hH hM hS hz hnodate htext
    simp [effectiveInstant, timeDateChooser, hnodate, htext,
      parseRFC3339_formatRFC3339 y2 m2 d2 hour min sec zone hy2 hm2 hd2 hH hM hS hz]
  · intro sortSlice hsort newService sources i j hi hj hev hlt
    apply fetch_index_lt_of_instantLT sortSlice hsort newService sources i j hi hj
    rw [hev, h1]
    exact hlt

theorem allDay_instant_is_utc_midnight_witness :
    (2024 ≤ 9999 ∧ (1 ≤ 3 ∧ 3 ≤ 12) ∧ (1 ≤ 15 ∧ 15 ≤ daysIn 3 2024) ∧
      (allDayEvent "holiday" "2024-03-15").Start.Date = formatDate 2024 3 15) ∧
    effectiveInstant (allDayEvent "holiday" "2024-03-15") = Date 2024 3 15 0 0 0 0 0 ∧
    effectiveInstant (timedEvent "lunch" "2024-03-15T12:30:00+03:00")
      = Date 2024 3 15 12 30 0 0 10800 ∧
    (fetchWithHTTPClient sort_Slice (.ok ())
        [⟨"work", .ok [timedEvent "lunch" "2024-03-15T12:30:00+03:00"]⟩,
         ⟨"home", .ok [allDayEvent "holiday" "2024-03-15"]⟩]).events
      = [allDayEvent "holiday" "2024-03-15", timedEvent "lunch" "2024-03-15T12:30:00+03:00"] ∧
    0 < 1 :=
  have h := allDay_instant_is_utc_midnight 2024 3 15 (allDayEvent "holiday" "2024-03-15")
    (by decide) (by decide) (by decide) (by decide)
  ⟨⟨by decide, by decide, by decide, by decide⟩, h.1,
    h.2.1 (timedEvent "lunch" "2024-03-15T12:30:00+03:00") 2024 3 15 12 30 0
      (some (false, 3, 0)) (by decide) (by decide) (by decide) (by decide) (by decide)
      (by decide) (by intro neg h m hz; cases hz; decide) (by decide) (by decide),
    by decide,
    h.2.2 sort_Slice sort_Slice_spec (.ok ())
      [⟨"work", .ok [timedEvent "lunch" "2024-03-15T12:30:00+03:00"]⟩,
       ⟨"home", .ok [allDayEvent "holiday" "2024-03-15"]⟩] 0 1 (by decide) (by decide)
      (by decide) (by decide)⟩

end Gcal
